import Mathlib

/-!
# Opalescence: a shallow embedding of the BitTorrent client core

This file embeds, in Lean 4, the parts of the `opalescence` BitTorrent
client that its specification's checkable claims are about:

* the wire-message codec (`src/opalescence/btlib/protocol/messages.py`),
* the per-piece block assembler (`Piece` in the same file),
* the request scheduler (`PieceRequester` in
  `src/opalescence/btlib/protocol/piece_handler.py`),
* the bencode codec (`src/btlib/bencode.py`),
* the tracker announce logic (`src/opalescence/btlib/protocol/tracker.py`),
* resume verification (`MetaInfoFile.check_existing_pieces` in
  `src/opalescence/btlib/protocol/metainfo.py`).

Bytes are modelled as `Nat` (well-formed inputs keep them below 256),
byte strings as `List Nat`, Python `int` as `Int` where sign matters,
and fallible Python code as `Except PyErr`.  Where an operation can
raise after mutating part of its object, the operation returns the
partially mutated state alongside the error, mirroring Python's
exception semantics.  SHA-1 (`hashlib.sha1(...).digest()`) is an
external library call and is threaded through as an explicit function
parameter `sha1 : List Nat → List Nat`.
-/

namespace Opalescence

/-- The Python exceptions (and library error classes) the embedded code can
raise, as one enumeration. -/
inductive PyErr where
  | keyError
  | indexError
  | attributeError
  | typeError
  | valueError
  | assertionError
  | structError
  | peerError
  | nonSequentialBlock
  | decodeError
  | trackerConnectionError
  | noTrackersError
  | fuelOut
  deriving DecidableEq, Repr

/-! ## Byte-level helpers: `struct.pack` / `struct.unpack` fragments -/

/-- Big-endian 4-byte encoding of a `Nat`, as `struct.pack(">I", n)` produces
for `n < 2^32`.  (For larger `n` Python raises `struct.error`; the theorems
carry `n < 2^32` hypotheses instead of threading that failure.) -/
def u32be (n : Nat) : List Nat :=
  [n / 2 ^ 24 % 256, n / 2 ^ 16 % 256, n / 2 ^ 8 % 256, n % 256]

/-- Big-endian value of a byte list, as `struct.unpack(">I", b)` computes on a
4-byte input. -/
def beVal (l : List Nat) : Nat :=
  l.foldl (fun acc x => acc * 256 + x) 0

/-- `struct.pack("{n}s", b)`: truncate or zero-pad `b` to exactly `n` bytes. -/
def packBytes (n : Nat) (b : List Nat) : List Nat :=
  b.take n ++ List.replicate (n - b.length) 0

/-! ## `Block` and `Piece` (messages.py) -/

/-- `Block` from `messages.py`: index, begin, a `length` attribute, and a
`data` payload (empty until received).  `Block.size` is the class attribute
`2 ** 14` inherited from `IndexableMessage`. -/
structure Block where
  index : Nat
  begin_ : Nat
  length : Nat
  data : List Nat
  deriving DecidableEq, Repr

/-- `IndexableMessage.size = 2 ** 14`, used as `Request.size`/`Block.size`. -/
def requestSize : Nat := 2 ^ 14

/-- `Piece` from `messages.py`: index, nominal length, a `present` byte
counter, the block size, the mutable block vector and the `written` flag. -/
structure Piece where
  index : Nat
  length : Nat
  present : Nat
  blockSize : Nat
  blocks : List Block
  written : Bool
  deriving DecidableEq, Repr

namespace Piece

/-- `Piece._create_blocks`: `num_blocks = ceil(length / block_size)` empty
blocks with `begin = k * block_size` and `length = block_size`. -/
def createBlocks (index length blockSize : Nat) : List Block :=
  (List.range ((length + blockSize - 1) / blockSize)).map
    (fun k => ⟨index, k * blockSize, blockSize, []⟩)

/-- `Piece.__init__`. -/
def init (index length blockSize : Nat) : Piece :=
  ⟨index, length, 0, blockSize, createBlocks index length blockSize, false⟩

/-- `Piece.complete`: `present == length`. -/
def complete (p : Piece) : Bool := p.present == p.length

/-- `Piece.remaining`: `length - present`, a Python `int` (it can go negative
if `present` overshoots `length`, which `add_block` permits). -/
def remaining (p : Piece) : Int := (p.length : Int) - (p.present : Int)

/-- `Piece.data`: `None` once written, otherwise the concatenation of the
block payloads. -/
def data (p : Piece) : Option (List Nat) :=
  if p.written then none else some (p.blocks.map Block.data).flatten

/-- `Piece.hash()`: `None` when written or not complete, otherwise the SHA-1
digest of the data (`sha1` is the external `hashlib` digest function). -/
def hash (sha1 : List Nat → List Nat) (p : Piece) : Option (List Nat) :=
  if p.written || !p.complete then none
  else some (sha1 (p.blocks.map Block.data).flatten)

/-- `Piece.add_block`.  The source checks `block_index < -1 or
block_index > len(self._blocks)`; with `begin : Nat` the quotient is never
negative, so only the upper check can fire, and it admits
`block_index == len(self._blocks)`, for which the subsequent Python list
assignment raises `IndexError` instead.  No check that the slot is already
filled is made: a filled slot is silently overwritten and `present` is
incremented again.  A block for a complete piece is silently dropped. -/
def addBlock (p : Piece) (b : Block) : Except PyErr Piece :=
  if p.complete then .ok p
  else if p.index != b.index then .error .assertionError
  else
    let blockIndex := b.begin_ / p.blockSize
    if blockIndex > p.blocks.length then .error .nonSequentialBlock
    else if blockIndex < p.blocks.length then
      .ok { p with blocks := p.blocks.set blockIndex b,
                   present := p.present + b.data.length }
    else .error .indexError

/-- `Piece.mark_written`: force `present = length`, set the flag, free the
blocks. -/
def markWritten (p : Piece) : Piece :=
  { p with present := p.length, written := true, blocks := [] }

/-- `Piece.reset`: back to the freshly initialized state. -/
def reset (p : Piece) : Piece :=
  { p with present := 0, written := false,
           blocks := createBlocks p.index p.length p.blockSize }

end Piece

/-! ## Wire-message codec (messages.py, §4.1)

A `bitstring.BitArray` is modelled as its bit sequence (`List Bool`,
MSB-first); `BitArray(bytes=b)` expands every byte to eight bits and
`tobytes()` packs bits into bytes, zero-padding the final byte. -/

/-- `BitArray.tobytes()`-style packing of one 8-bit (or shorter, zero-padded)
chunk, MSB first. -/
def byteOfBits (bs : List Bool) : Nat :=
  (bs.take 8 ++ List.replicate (8 - bs.length) false).foldl
    (fun acc b => 2 * acc + if b then 1 else 0) 0

/-- `BitArray.tobytes()`: pack bits into bytes MSB-first, eight at a time,
zero-padding the last byte. -/
def bitsToBytes : List Bool → List Nat
  | [] => []
  | b1 :: b2 :: b3 :: b4 :: b5 :: b6 :: b7 :: b8 :: rest =>
    byteOfBits [b1, b2, b3, b4, b5, b6, b7, b8] :: bitsToBytes rest
  | bs => [byteOfBits bs]

/-- `BitArray(bytes=b)`: each byte becomes eight bits, MSB first. -/
def bitsOfByte (n : Nat) : List Bool :=
  (List.range 8).map (fun k => n / 2 ^ (7 - k) % 2 == 1)

/-- `BitArray(bytes=b)` over a whole byte string. -/
def bytesToBits (l : List Nat) : List Bool :=
  (l.map bitsOfByte).flatten

/-- The ten framed wire-message kinds (the handshake is a separate fixed
frame and carries no length prefix). -/
inductive Msg where
  | keepAlive
  | choke
  | unchoke
  | interested
  | notInterested
  | haveMsg (index : Nat)
  | bitfield (bits : List Bool)
  | request (index begin_ length : Nat)
  | block (index begin_ : Nat) (data : List Nat)
  | cancel (index begin_ length : Nat)
  deriving DecidableEq, Repr

namespace Msg

/-- Each class's `encode()`: the full frame `length:u32-be ∥ body`, with the
length value the source packs literally.  `Bitfield.encode` packs
`1 + len(self.bitfield)` — the BIT count — as the length, and pads
`tobytes()` out to that many bytes via the `f">IB{bitfield_len}s"` format. -/
def encode : Msg → List Nat
  | keepAlive => u32be 0
  | choke => u32be 1 ++ [0]
  | unchoke => u32be 1 ++ [1]
  | interested => u32be 1 ++ [2]
  | notInterested => u32be 1 ++ [3]
  | haveMsg i => u32be 5 ++ [4] ++ u32be i
  | bitfield bits => u32be (1 + bits.length) ++ [5] ++
      packBytes bits.length (bitsToBytes bits)
  | request i b l => u32be 13 ++ [6] ++ u32be i ++ u32be b ++ u32be l
  | block i b d => u32be (9 + d.length) ++ [7] ++ u32be i ++ u32be b ++ d
  | cancel i b l => u32be 13 ++ [8] ++ u32be i ++ u32be b ++ u32be l

/-- Decoding a frame body (everything after the 4-byte length prefix), as
`PeerConnection._consume` dispatches it: a zero-length body is a KeepAlive;
otherwise the first byte is the id and the rest goes to the class `decode`.
Ids 0–3 carry no payload (the reader does not consume one).  `Have.decode`
unpacks `">I"` (exactly 4 bytes), `Request`/`Cancel` unpack `">3I"`/`">III"`
(exactly 12 bytes), `Block.decode` unpacks `">II{len-8}s"` (at least 8
bytes), `Bitfield.decode` turns the whole payload into a `BitArray`.
An unknown id raises `PeerError` in the reader. -/
def decodeBody : List Nat → Except PyErr Msg
  | [] => .ok keepAlive
  | id :: payload =>
    match id with
    | 0 => .ok choke
    | 1 => .ok unchoke
    | 2 => .ok interested
    | 3 => .ok notInterested
    | 4 => if payload.length = 4 then .ok (haveMsg (beVal payload))
           else .error .structError
    | 5 => .ok (bitfield (bytesToBits payload))
    | 6 => if payload.length = 12 then
             .ok (request (beVal (payload.take 4))
                  (beVal ((payload.drop 4).take 4)) (beVal (payload.drop 8)))
           else .error .structError
    | 7 => if payload.length < 8 then .error .structError
           else .ok (block (beVal (payload.take 4))
                     (beVal ((payload.drop 4).take 4)) (payload.drop 8))
    | 8 => if payload.length = 12 then
             .ok (cancel (beVal (payload.take 4))
                  (beVal ((payload.drop 4).take 4)) (beVal (payload.drop 8)))
           else .error .structError
    | _ => .error .peerError

/-- Well-formed fields: every u32-packed field fits in 32 bits (Python's
`struct.pack(">I", x)` raises otherwise). -/
def WellFormed : Msg → Prop
  | haveMsg i => i < 2 ^ 32
  | request i b l => i < 2 ^ 32 ∧ b < 2 ^ 32 ∧ l < 2 ^ 32
  | block i b d => i < 2 ^ 32 ∧ b < 2 ^ 32 ∧ 9 + d.length < 2 ^ 32
  | bitfield bits => 1 + bits.length < 2 ^ 32
  | cancel i b l => i < 2 ^ 32 ∧ b < 2 ^ 32 ∧ l < 2 ^ 32
  | _ => True

end Msg

/-! ## The scheduler: `PieceRequester` (piece_handler.py)

`PeerInfo` keys are their `peer_id` strings.  The Python `dict`
`piece_peer_map` (keys `0 .. num_pieces-1`) is a partial map
`Nat → Option (List String)`; looking up an absent key raises `KeyError`.
`peer_piece_map` is a `defaultdict(set)`, i.e. a total map with default
`[]`.  Sets are modelled as duplicate-free lists (`listAdd`); only
membership and emptiness of these sets matter to any property proved
below, so the (unspecified) iteration order of a Python `set` is fixed
as insertion order. -/

/-- `set.add`: add an element if it is not already present. -/
def listAdd [DecidableEq α] (l : List α) (x : α) : List α :=
  if x ∈ l then l else l ++ [x]

/-- The buggy Python idiom `for i, x in enumerate(lst): if p(x): del lst[i]`:
after a deletion the loop index still advances, skipping the element that
slid into the deleted slot.  Returns the resulting list and whether any
element was deleted. -/
def pyDelLoop (p : α → Bool) (l : List α) (i : Nat) : List α × Bool :=
  if h : i < l.length then
    if p (l.get ⟨i, h⟩) then
      let r := pyDelLoop p (l.eraseIdx i) (i + 1)
      (r.1, true)
    else pyDelLoop p l (i + 1)
  else (l, false)
  termination_by l.length - i
  decreasing_by
    · simp only [List.length_eraseIdx_of_lt h]
      omega
    · omega

/-- `Request` as the scheduler stores it: `(index, begin, length)` plus the
`peer_id` attribute (`None` from the constructor).  `Request.__eq__`
(inherited from `IndexableMessage`) compares only `(index, begin, length)`. -/
structure SchedRequest where
  index : Nat
  begin_ : Nat
  length : Int
  peerId : Option String
  deriving DecidableEq, Repr

/-- `IndexableMessage.__eq__`: equality on `(index, begin, length)` only. -/
def SchedRequest.eqPy (a b : SchedRequest) : Bool :=
  a.index == b.index && a.begin_ == b.begin_ && a.length == b.length

/-- The torrent state the requester reads: the `Piece` aggregates and the
frozen 20-byte piece hashes (`MetaInfoFile.pieces` / `.piece_hashes`). -/
structure Torrent where
  pieces : List Piece
  pieceHashes : List (List Nat)
  deriving DecidableEq, Repr

namespace Torrent

/-- `MetaInfoFile.num_pieces = len(self.piece_hashes)`. -/
def numPieces (t : Torrent) : Nat := t.pieceHashes.length

/-- `MetaInfoFile.remaining`: sum of the pieces' remaining byte counts. -/
def remaining (t : Torrent) : Int := (t.pieces.map Piece.remaining).sum

/-- `MetaInfoFile.complete`: `remaining == 0`. -/
def complete (t : Torrent) : Bool := t.remaining == 0

end Torrent

/-- `PieceRequester` state.  `events` records the indices handed to
`PieceReceivedEvent` (the completion sink). -/
structure Requester where
  torrent : Torrent
  piecePeerMap : Nat → Option (List String)
  peerPieceMap : String → List Nat
  pendingRequests : List SchedRequest
  events : List Nat

namespace Requester

/-- `PieceRequester.__init__`: `piece_peer_map = {i: set() for i in
range(num_pieces)}`, an empty `defaultdict` and no pending requests. -/
def init (t : Torrent) : Requester :=
  { torrent := t
    piecePeerMap := fun i => if i < t.numPieces then some [] else none
    peerPieceMap := fun _ => []
    pendingRequests := []
    events := [] }

/-- `PieceRequester.add_available_piece`.  `self.piece_peer_map[index]` is an
unguarded `dict` lookup: an index outside the initialized key range raises
`KeyError` before anything is recorded. -/
def addAvailablePiece (st : Requester) (peer : String) (index : Nat) :
    Except PyErr Unit × Requester :=
  match st.piecePeerMap index with
  | none => (.error .keyError, st)
  | some peers =>
    let st1 := { st with
      piecePeerMap := fun j =>
        if j = index then some (listAdd peers peer) else st.piecePeerMap j }
    (.ok (), { st1 with
      peerPieceMap := fun q =>
        if q = peer then listAdd (st1.peerPieceMap q) index
        else st1.peerPieceMap q })

/-- `PieceRequester.add_peer_bitfield`: `add_available_piece` for every set
bit, in bit order; a raised `KeyError` aborts the loop, keeping the
mutations already made.  `start` is the index of the first bit of `bits`. -/
def addPeerBitfieldFrom (st : Requester) (peer : String) (start : Nat) :
    List Bool → Except PyErr Unit × Requester
  | [] => (.ok (), st)
  | b :: rest =>
    if b then
      match addAvailablePiece st peer start with
      | (.ok _, st1) => addPeerBitfieldFrom st1 peer (start + 1) rest
      | (.error e, st1) => (.error e, st1)
    else addPeerBitfieldFrom st peer (start + 1) rest

/-- `PieceRequester.add_peer_bitfield`. -/
def addPeerBitfield (st : Requester) (peer : String) (bits : List Bool) :
    Except PyErr Unit × Requester :=
  addPeerBitfieldFrom st peer 0 bits

/-- `PieceRequester.remove_pending_requests_for_peer` (the `del`-inside-loop
idiom; `request.peer_id == peer.peer_id` with `peer_id` the string key). -/
def removePendingRequestsForPeer (st : Requester) (peer : String) : Requester :=
  { st with pendingRequests :=
      (pyDelLoop (fun r => r.peerId == some peer) st.pendingRequests 0).1 }

/-- `PieceRequester.remove_request`: delete every pending request equal (as
`IndexableMessage`) to `r`; report whether any was deleted. -/
def removeRequest (st : Requester) (r : SchedRequest) : Bool × Requester :=
  let res := pyDelLoop (fun pr => pr.eqPy r) st.pendingRequests 0
  (res.2, { st with pendingRequests := res.1 })

/-- `PieceRequester.remove_requests_for_piece`. -/
def removeRequestsForPiece (st : Requester) (pieceIndex : Nat) : Requester :=
  { st with pendingRequests :=
      (pyDelLoop (fun r => r.index == pieceIndex) st.pendingRequests 0).1 }

/-- `PieceRequester.remove_peer`: discard the peer from every piece→peers
set, drop its `peer_piece_map` entry (`defaultdict`: back to the default),
and drop its pending requests. -/
def removePeer (st : Requester) (peer : String) : Requester :=
  let st1 := { st with
    piecePeerMap := fun j => (st.piecePeerMap j).map (List.filter (· ≠ peer))
    peerPieceMap := fun q => if q = peer then [] else st.peerPieceMap q }
  removePendingRequestsForPeer st1 peer

/-- `PieceRequester.piece_complete`: compare `piece.hash()` against
`self.torrent.piece_hashes[piece.index]`; on mismatch reset the piece, on
match drop the piece's pending requests and emit `PieceReceivedEvent`.
The comparison is `Option`-valued on the left because `hash()` returns
`None` for a written or incomplete piece. -/
def pieceComplete (sha1 : List Nat → List Nat) (st : Requester) (p : Piece) :
    Except PyErr Unit × Requester :=
  match st.torrent.pieceHashes.get? p.index with
  | none => (.error .indexError, st)
  | some expected =>
    if (Piece.hash sha1 p == some expected) = false then
      (.ok (), { st with torrent :=
        { st.torrent with pieces := st.torrent.pieces.set p.index (p.reset) } })
    else
      let st1 := removeRequestsForPiece st p.index
      (.ok (), { st1 with events := st1.events ++ [p.index] })

/-- `PieceRequester.received_block`.  Faithful to the source order:
both availability maps are updated *before* the range check, so an
out-of-range index raises `KeyError` at `self.piece_peer_map[block.index]`
with `peer_piece_map` already mutated; the range check itself uses `>`
(not `>=`), so `block.index == len(pieces)` would fall through to an
`IndexError` at `self.torrent.pieces[block.index]`.  `NonSequentialBlockError`
from `add_block` is caught and ignored; other exceptions propagate. -/
def receivedBlock (sha1 : List Nat → List Nat) (st : Requester)
    (peer : String) (b : Block) : Except PyErr Bool × Requester :=
  let st1 := { st with
    peerPieceMap := fun q =>
      if q = peer then listAdd (st.peerPieceMap q) b.index
      else st.peerPieceMap q }
  match st1.piecePeerMap b.index with
  | none => (.error .keyError, st1)
  | some peers =>
    let st2 := { st1 with
      piecePeerMap := fun j =>
        if j = b.index then some (listAdd peers peer) else st1.piecePeerMap j }
    if b.index > st2.torrent.pieces.length then (.ok false, st2)
    else
      match st2.torrent.pieces.get? b.index with
      | none => (.error .indexError, st2)
      | some piece =>
        if piece.complete then (.ok false, st2)
        else
          let r : SchedRequest :=
            ⟨b.index, b.begin_, min piece.remaining (requestSize : Int), none⟩
          let rem := removeRequest st2 r
          if !rem.1 then (.ok false, rem.2)
          else
            match piece.addBlock b with
            | .error .nonSequentialBlock => (.ok true, rem.2)
            | .error e => (.error e, rem.2)
            | .ok piece' =>
              let st3 := { rem.2 with torrent :=
                { rem.2.torrent with
                    pieces := rem.2.torrent.pieces.set b.index piece' } }
              if piece'.complete then
                let pc := pieceComplete sha1 st3 piece'
                (pc.1.map (fun _ => true), pc.2)
              else (.ok true, st3)

/-- The piece scan inside `next_request_for_peer`.  For the first
non-complete piece the peer advertises, the source evaluates
`piece.next_block` while building `Request(i, piece.next_block, size,
peer.peer_id)` — but `Piece` (messages.py) defines no `next_block`
attribute, so this raises `AttributeError`; even with that attribute,
`Request.__init__(self, index, begin, length)` takes three positional
arguments and is called with four, which would raise `TypeError`. -/
def nextRequestScan (st : Requester) : List Nat →
    Except PyErr (Option SchedRequest)
  | [] => .ok none
  | i :: rest =>
    match st.torrent.pieces.get? i with
    | none => .error .indexError
    | some piece =>
      if piece.complete then nextRequestScan st rest
      else .error .attributeError

/-- `PieceRequester.next_request_for_peer`.  Returns `None` when the torrent
is complete or 50 requests are pending; otherwise scans the peer's pieces
(raising as described in `nextRequestScan`); returns `None` when the peer
has nothing useful.  No path reaches the `pending_requests.append`. -/
def nextRequestForPeer (st : Requester) (peer : String) :
    Except PyErr (Option SchedRequest) × Requester :=
  if st.torrent.complete then (.ok none, st)
  else if 50 ≤ st.pendingRequests.length then (.ok none, st)
  else (nextRequestScan st (st.peerPieceMap peer), st)

/-- One scheduler event of the history quantified over by the request
uniqueness claim. -/
inductive Evt where
  | addAvail (peer : String) (index : Nat)
  | addBits (peer : String) (bits : List Bool)
  | recvBlock (peer : String) (b : Block)
  | drop (peer : String)
  | nextReq (peer : String)

/-- Apply one event, keeping whatever state the operation left behind
(also on a raised exception, as Python does). -/
def applyEvt (sha1 : List Nat → List Nat) (st : Requester) : Evt → Requester
  | .addAvail peer i => (addAvailablePiece st peer i).2
  | .addBits peer bits => (addPeerBitfield st peer bits).2
  | .recvBlock peer b => (receivedBlock sha1 st peer b).2
  | .drop peer => removePeer st peer
  | .nextReq peer => (nextRequestForPeer st peer).2

/-- Run a history of scheduler events. -/
def runEvts (sha1 : List Nat → List Nat) (st : Requester) (es : List Evt) :
    Requester :=
  es.foldl (applyEvt sha1) st

end Requester

/-! ## Tracker announce logic (tracker.py)

The HTTP transport is external; each announce is parameterized by its
outcome: `none` models a transport/decode failure (connection error,
non-200 status, undecodable body — everything `http_request` turns into
`TrackerConnectionError` before the failure-reason check), and
`some resp` a decoded bencoded response. -/

/-- The fields of a decoded tracker response that `TrackerResponse` reads. -/
structure TrackerResp where
  failureReason : Option (List Nat)
  interval? : Option Nat
  minInterval? : Option Nat
  deriving DecidableEq, Repr

namespace TrackerResp

/-- `TrackerResponse.failed`: `"failure reason" in self.data`. -/
def failed (r : TrackerResp) : Bool := r.failureReason.isSome

/-- `TrackerResponse.interval`: if `min interval` is absent or falsy (0),
`interval` (default 60); otherwise `min(min_interval, interval-or-60)`. -/
def intervalVal (r : TrackerResp) : Nat :=
  match r.minInterval? with
  | none => r.interval?.getD 60
  | some 0 => r.interval?.getD 60
  | some m => min m (r.interval?.getD 60)

end TrackerResp

/-- The `TrackerConnection` state the announce path touches: the URL deque
(front = next URL), the current re-announce interval, and the torrent's
remaining byte count. -/
structure TrackerConn where
  announceUrls : List String
  interval : Nat
  remaining : Int
  deriving DecidableEq, Repr

namespace TrackerConn

/-- `TrackerConnection.announce`.  Raises `NoTrackersError` when the deque
is empty.  Pops the front URL; a transport failure or a response carrying
`failure reason` becomes `TrackerConnectionError` with the popped URL *not*
put back.  On success with a non-`completed`/`stopped` event the same URL is
pushed back on the *front* (`appendleft`) and the response returned; for
`completed`/`stopped` the method returns `None` (and the URL is also not put
back). -/
def announce (st : TrackerConn) (event : String)
    (outcome : Option TrackerResp) :
    Except PyErr (Option TrackerResp) × TrackerConn :=
  match st.announceUrls with
  | [] => (.error .noTrackersError, st)
  | _u :: rest =>
    let event1 := if st.remaining == 0 && event == "" then "completed" else event
    let st1 := { st with announceUrls := rest }
    match outcome with
    | none => (.error .trackerConnectionError, st1)
    | some resp =>
      if resp.failed then (.error .trackerConnectionError, st1)
      else if event1 != "completed" && event1 != "stopped" then
        (.ok (some resp),
         { st1 with interval := resp.intervalVal,
                    announceUrls := st.announceUrls })
      else (.ok none, st1)

/-- One iteration of the `while` loop in `TrackerTask._recurring_announce`:
on `TrackerConnectionError` the loop `continue`s — no sleep, the event kept
as is; on success the response is queued, the event reset to `""` and the
loop sleeps `self.interval` seconds.  `NoTrackersError` propagates out of
the loop.  Returns the new state, the next event, whether the iteration
slept, and the queued response if any. -/
def recurringStep (st : TrackerConn) (event : String)
    (outcome : Option TrackerResp) :
    Except PyErr (TrackerConn × String × Bool × Option (Option TrackerResp)) :=
  match announce st event outcome with
  | (.error .noTrackersError, _) => .error .noTrackersError
  | (.error _, st1) => .ok (st1, event, false, none)
  | (.ok r, st1) => .ok (st1, "", true, some r)

end TrackerConn

/-! ## Bencode codec (src/btlib/bencode.py)

Values are modelled by `BVal`.  Byte strings are `List Nat`; the codec's
ISO-8859-1 decoding/encoding is the identity on byte values 0–255, so the
Python `str`/`bytes` distinction disappears.  Dictionary keys are byte
strings, as in every bencodable value (a Python dict key decoded as a list
or dict would raise `TypeError` at `setdefault` because it is unhashable;
a decoded integer key would make the value fall outside the bencodable
domain — the model reports `typeError` for any non-string key). -/

/-- Bencodable values: integers, byte strings, lists, dictionaries. -/
inductive BVal where
  | int (n : Int)
  | str (s : List Nat)
  | list (items : List BVal)
  | dict (entries : List (List Nat × BVal))

namespace BVal

/-- Python truthiness (`if not x`): zero, the empty string, the empty list
and the empty dict are falsy. -/
def truthy : BVal → Bool
  | .int n => n != 0
  | .str s => !s.isEmpty
  | .list xs => !xs.isEmpty
  | .dict es => !es.isEmpty

end BVal

/-- The characters the codec matches on (ISO-8859-1 code points). -/
def isDigitB (c : Nat) : Bool := 48 ≤ c && c ≤ 57

/-- `int(bytes_of_digits)`: decimal value of an ASCII digit string. -/
def pyInt (ds : List Nat) : Nat := ds.foldl (fun a d => 10 * a + (d - 48)) 0

/-- `str(n)` for `n : Nat`: decimal digits, ASCII (`fuel > n` suffices, as
the recursion divides by 10). -/
def natDigitsAux : Nat → Nat → List Nat
  | 0, _ => []
  | fuel + 1, n =>
    if n < 10 then [48 + n]
    else natDigitsAux fuel (n / 10) ++ [48 + n % 10]

/-- `str(n)` for `n : Nat`: decimal digits, ASCII. -/
def natDigits (n : Nat) : List Nat := natDigitsAux (n + 1) n

/-- `str(n)` for a Python `int` (a `-` sign for negatives). -/
def intDigits (n : Int) : List Nat :=
  if n < 0 then 45 :: natDigits (-n).toNat else natDigits n.toNat

/-- `_encode_str`: `"{len}:{s}"`. -/
def encodeStr (s : List Nat) : List Nat := natDigits s.length ++ [58] ++ s

mutual

/-- `_encode`: `i<digits>e` for ints, `<len>:<bytes>` for strings,
`l<items>e` for lists, `d<key><value>…e` for dicts (keys encoded with
`_encode_str`, in the dict's own order — no sorting on encode). -/
def encodeVal : BVal → List Nat
  | .int n => 105 :: intDigits n ++ [101]
  | .str s => encodeStr s
  | .list xs => 108 :: encodeItems xs ++ [101]
  | .dict es => 100 :: encodeEntries es ++ [101]

/-- Encoding of a list's items, in order. -/
def encodeItems : List BVal → List Nat
  | [] => []
  | x :: xs => encodeVal x ++ encodeItems xs

/-- Encoding of a dict's entries, in order. -/
def encodeEntries : List (List Nat × BVal) → List Nat
  | [] => []
  | (k, v) :: es => encodeStr k ++ encodeVal v ++ encodeEntries es

end

/-- `_parse_num`: consume ASCII digits up to `delim`; a non-digit other than
the delimiter (or end of input, where `read(1)` returns `b''`) is a
`DecodeError`; an empty digit string makes `int('')` raise `ValueError`. -/
def parseNumAux (delim : Nat) (acc : List Nat) :
    List Nat → Except PyErr (Nat × List Nat)
  | [] => .error .decodeError
  | c :: rest =>
    if isDigitB c then parseNumAux delim (acc ++ [c]) rest
    else if c == delim then
      if acc.isEmpty then .error .valueError else .ok (pyInt acc, rest)
    else .error .decodeError

/-- Python string comparison `a < b` (lexicographic on code points; the
ISO-8859-1 identity makes it lexicographic on byte values). -/
def pyStrLt : List Nat → List Nat → Bool
  | _, [] => false
  | [], _ :: _ => true
  | a :: as, b :: bs => a < b || (a == b && pyStrLt as bs)

/-- `keys == sorted(keys)` for string keys: since Python's `sorted` is a
stable sort under a total order, the check holds exactly when consecutive
keys are nondecreasing. -/
def keysNondec : List (List Nat) → Bool
  | [] => true
  | [_] => true
  | a :: b :: t => (pyStrLt a b || a == b) && keysNondec (b :: t)

mutual

/-- `_decode` over a remaining-input list, with explicit fuel (each unit of
fuel is one Python recursion level; `bdecode` supplies enough for any
input).  Returns Python's `None` (`Option.none`) at end of input and after
consuming a dict/list terminator `e`. -/
def decodeVal : Nat → List Nat → Except PyErr (Option BVal × List Nat)
  | 0, _ => .error .fuelOut
  | _ + 1, [] => .ok (none, [])
  | f + 1, c :: rest =>
    if c = 101 then .ok (none, rest)
    else if c = 105 then
      match parseNumAux 101 [] rest with
      | .error e => .error e
      | .ok (n, r) => .ok (some (.int (n : Int)), r)
    else if isDigitB c then
      match parseNumAux 58 [] (c :: rest) with
      | .error e => .error e
      | .ok (len, r) =>
        let s := r.take len
        if s.length ≠ len then .error .decodeError
        else .ok (some (.str s), r.drop len)
    else if c = 100 then decodeDict f rest [] []
    else if c = 108 then decodeList f rest []
    else .error .decodeError

/-- The `while True` loop of the list branch of `_decode`: decode an item;
`if not item: break` — both `None` (end marker reached) and a falsy item
(`0`, `''`, `[]`, an empty dict) terminate the loop, the falsy item being
dropped and the rest of the list's encoding left unconsumed. -/
def decodeList (fuel : Nat) (buf : List Nat) (acc : List BVal) :
    Except PyErr (Option BVal × List Nat) :=
  match fuel with
  | 0 => .error .fuelOut
  | f + 1 =>
    match decodeVal f buf with
    | .error e => .error e
    | .ok (none, buf1) => .ok (some (.list acc), buf1)
    | .ok (some item, buf1) =>
      if !item.truthy then .ok (some (.list acc), buf1)
      else decodeList f buf1 (acc ++ [item])

/-- The `while True` loop of the dict branch of `_decode`: decode a key
(`if not key: break` as for lists), then a value; `keys.append(key)` feeds
the final `keys != sorted(keys)` check (`rawKeys`), while
`decoded_dict.setdefault(key, val)` keeps only the first binding of a
repeated key (`entries`).  A key that is not a byte string is reported as
`typeError` (see the section comment).  A `None` value (input exhausted
mid-entry) is also outside the bencodable domain and reported as
`decodeError`. -/
def decodeDict (fuel : Nat) (buf : List Nat) (rawKeys : List (List Nat))
    (entries : List (List Nat × BVal)) :
    Except PyErr (Option BVal × List Nat) :=
  match fuel with
  | 0 => .error .fuelOut
  | f + 1 =>
    match decodeVal f buf with
    | .error e => .error e
    | .ok (none, buf1) =>
      if keysNondec rawKeys then .ok (some (.dict entries), buf1)
      else .error .decodeError
    | .ok (some key, buf1) =>
      if !key.truthy then
        if keysNondec rawKeys then .ok (some (.dict entries), buf1)
        else .error .decodeError
      else
        match key with
        | .str s =>
          match decodeVal f buf1 with
          | .error e => .error e
          | .ok (none, _) => .error .decodeError
          | .ok (some v, buf2) =>
            let entries1 :=
              if s ∈ entries.map Prod.fst then entries else entries ++ [(s, v)]
            decodeDict f buf2 (rawKeys ++ [s]) entries1
        | _ => .error .typeError

end

/-- `bdecode`: run `_decode` on the whole input and return its value
(possibly `None`), discarding any unconsumed suffix.  `2·len + 2` fuel
covers the deepest recursion any input of this length can drive. -/
def bdecode (input : List Nat) : Except PyErr (Option BVal) :=
  (decodeVal (2 * input.length + 2) input).map Prod.fst

/-- `bencode` is `_encode` (it is a plain function of the value, so it is
byte-for-byte deterministic by construction). -/
def bencode (v : BVal) : List Nat := encodeVal v

mutual

/-- Fuel measure of a value: enough `decodeVal` fuel to decode its
encoding. -/
def sizeB : BVal → Nat
  | .int _ => 1
  | .str _ => 1
  | .list xs => 1 + sizeItems xs
  | .dict es => 1 + sizeEntries es

/-- Fuel measure of a list's items (the final unit covers the terminator
iteration). -/
def sizeItems : List BVal → Nat
  | [] => 2
  | x :: xs => 1 + sizeB x + sizeItems xs

/-- Fuel measure of a dict's entries. -/
def sizeEntries : List (List Nat × BVal) → Nat
  | [] => 2
  | (_, v) :: es => 2 + sizeB v + sizeEntries es

end

/-- Strictly increasing (hence sorted and duplicate-free) key list: every
key is below every later key. -/
def strictKeys : List (List Nat) → Bool
  | [] => true
  | k :: ks => ks.all (fun k2 => pyStrLt k k2) && strictKeys ks

mutual

/-- The bencodable values whose round-trip the amended claim asserts:
nonnegative integers everywhere, every list element truthy, every dict
key a nonempty byte string with keys strictly increasing.  Dict values
are unrestricted beyond their own well-formedness: the dict loop's
`if not key: break` tests only the key, so a falsy value is consumed
and stored. -/
def wfB : BVal → Bool
  | .int n => decide (0 ≤ n)
  | .str _ => true
  | .list xs => wfItems xs
  | .dict es => strictKeys (es.map Prod.fst) && wfEntries es

/-- Well-formedness of list items: each truthy and well-formed. -/
def wfItems : List BVal → Bool
  | [] => true
  | x :: xs => x.truthy && wfB x && wfItems xs

/-- Well-formedness of dict entries: nonempty keys, well-formed values
(values need not be truthy). -/
def wfEntries : List (List Nat × BVal) → Bool
  | [] => true
  | (k, v) :: es => !k.isEmpty && wfB v && wfEntries es

end

/-! ## File map and resume verification (metainfo.py)

`FileItem` comes from `fileio.py`, which the repository snapshot does not
contain; its fields and `file_for_offset` are modelled from the spec (§4.2
and the `FileItem(filepath, length, offset, exists)` construction in
`MetaInfoFile._gather_files`).  The files dict `{0..m-1 → FileItem}` is a
list indexed by position.  The on-disk bytes of file `j` (when it exists)
are `content j`; `pyRead c pos n` is Python's `f.seek(pos); f.read(n)`
(a negative `n` reads to end of file). -/

/-- Modelled from the spec: `FileItem` of `fileio.py` (missing from the
snapshot) carries the file's nominal size, its cumulative offset in the
torrent, and an existence flag, per §3 "FileMap" and `_gather_files`. -/
structure FileItem where
  size : Nat
  offset : Nat
  fexists : Bool
  deriving DecidableEq, Repr

/-- `f.seek(pos); f.read(n)` on content `c`: at most `n` bytes from `pos`
(fewer at end of file); Python reads to the end when `n` is negative. -/
def pyRead (c : List Nat) (pos : Nat) (n : Int) : List Nat :=
  if n < 0 then c.drop pos else (c.drop pos).take n.toNat

/-- Walk to the last file whose cumulative offset is `≤ off`. -/
def fileForOffsetGo (off : Nat) (j : Nat) (f : FileItem) :
    List FileItem → Nat × Nat
  | [] => (j, off - f.offset)
  | g :: rest =>
    if g.offset ≤ off then fileForOffsetGo off (j + 1) g rest
    else (j, off - f.offset)

/-- Modelled from the spec: `FileItem.file_for_offset` of `fileio.py`
(missing from the snapshot): `locate(absolute_offset) → (file_index,
local_offset)` by search on cumulative offsets — the last file whose
cumulative offset is `≤ offset`. -/
def fileForOffset (files : List FileItem) (off : Nat) : Nat × Nat :=
  match files with
  | [] => (0, off)
  | f :: rest => fileForOffsetGo off 0 f rest

/-- The per-piece body of `MetaInfoFile.check_existing_pieces`: locate the
piece's start, skip (`continue`) when the file handle is absent or the file
does not exist; read the piece's bytes — spanning *at most two* files (the
source only handles `file_offset + piece.length > file.size` by reading the
tail of the next file); on a full-length read compare SHA-1 against
`piece_hashes[i]` and `mark_written()` or `reset()`; otherwise leave the
piece untouched. -/
def checkOnePiece (sha1 : List Nat → List Nat) (files : List FileItem)
    (content : Nat → List Nat) (pieceLength : Nat)
    (pieceHashes : List (List Nat)) (i : Nat) (piece : Piece) :
    Except PyErr Piece :=
  let loc := fileForOffset files (i * pieceLength)
  let fi := loc.1
  let fo := loc.2
  match files.get? fi with
  | none => .ok piece
  | some f =>
    if !f.fexists then .ok piece
    else
      let pd? : Option (List Nat) :=
        if fo + piece.length > f.size then
          match files.get? (fi + 1) with
          | none => none
          | some g =>
            if !g.fexists then none
            else
              let firstFileLen : Int := (f.size : Int) - (fo : Int)
              let d1 := pyRead (content fi) fo firstFileLen
              let d2 := pyRead (content (fi + 1)) 0
                ((piece.length : Int) - firstFileLen)
              some (d1 ++ d2)
        else some (pyRead (content fi) fo (piece.length : Int))
      match pd? with
      | none => .ok piece
      | some pd =>
        if pd.length = piece.length then
          match pieceHashes.get? i with
          | none => .error .indexError
          | some expected =>
            if sha1 pd = expected then .ok piece.markWritten
            else .ok piece.reset
        else .ok piece

/-- The `for i, piece in enumerate(self.pieces)` loop of
`check_existing_pieces`, starting at index `start`. -/
def checkPiecesFrom (sha1 : List Nat → List Nat) (files : List FileItem)
    (content : Nat → List Nat) (pieceLength : Nat)
    (pieceHashes : List (List Nat)) (start : Nat) :
    List Piece → Except PyErr (List Piece)
  | [] => .ok []
  | p :: ps =>
    match checkOnePiece sha1 files content pieceLength pieceHashes start p with
    | .error e => .error e
    | .ok p1 =>
      match checkPiecesFrom sha1 files content pieceLength pieceHashes
          (start + 1) ps with
      | .error e => .error e
      | .ok ps1 => .ok (p1 :: ps1)

/-- `MetaInfoFile.check_existing_pieces`. -/
def checkExistingPieces (sha1 : List Nat → List Nat) (files : List FileItem)
    (content : Nat → List Nat) (pieceLength : Nat)
    (pieceHashes : List (List Nat)) (pieces : List Piece) :
    Except PyErr (List Piece) :=
  checkPiecesFrom sha1 files content pieceLength pieceHashes 0 pieces

/-- Modelled from the spec: the File map's `read_range` (§4.2) starting
inside file `j` at local offset `pos`: read up to each file's nominal
size, spanning into the following files as needed, returning fewer bytes
when a file is missing or the files run out. -/
def readRangeGo (files : List FileItem) (content : Nat → List Nat) :
    Nat → Nat → Nat → Nat → List Nat
  | 0, _, _, _ => []
  | fuel + 1, j, pos, n =>
    if n = 0 then []
    else
      match files.get? j with
      | none => []
      | some f =>
        if !f.fexists then []
        else
          let want := min n (f.size - pos)
          let chunk := ((content j).drop pos).take want
          if chunk.length < want then chunk
          else chunk ++ readRangeGo files content fuel (j + 1) 0 (n - want)

/-- Modelled from the spec: `read_range(absolute_offset, length)` (§4.2).
The file index grows on every recursive step and the walk stops past the
last file, so `files.length + 1` fuel always suffices. -/
def readRange (files : List FileItem) (content : Nat → List Nat)
    (off n : Nat) : List Nat :=
  let loc := fileForOffset files off
  readRangeGo files content (files.length + 1) loc.1 loc.2 n

/-! ## Concrete fixtures used by the closed evaluation theorems -/

/-- A concrete stand-in for the external `hashlib.sha1(...).digest()` used
to instantiate closed evaluation theorems whose truth does not depend on
the digest values (the code paths they evaluate never reach a hash
comparison, or compare a digest against itself). -/
def sha1Ext : List Nat → List Nat := fun _ => List.replicate 20 0

/-- A one-piece torrent (piece length 16384, a single 16384-byte piece,
one 20-byte hash entry). -/
def tor1 : Torrent :=
  ⟨[Piece.init 0 16384 16384], [List.replicate 20 0]⟩

/-- `cumulative_offset[i] = Σ length[0..i)` (§3 "FileMap" invariant),
relative to a running total. -/
def offsetsOkB : Nat → List FileItem → Bool
  | _, [] => true
  | acc, f :: rest => (f.offset == acc) && offsetsOkB (acc + f.size) rest

/-- Total nominal size of the file list. -/
def sumSizes (files : List FileItem) : Nat :=
  (files.map FileItem.size).sum

/-- The claim's words for what resume verification should do to piece `i`:
read the piece's full length at absolute offset `i·L` from the File map
(spanning files as needed); mark the piece written exactly when the read
returns `piece.length` bytes whose digest equals `piece_hashes[i]`, reset
it on a full read with a hash mismatch, and leave it otherwise. -/
def resumeSpecPiece (sha1 : List Nat → List Nat) (files : List FileItem)
    (content : Nat → List Nat) (pieceLength : Nat)
    (pieceHashes : List (List Nat)) (i : Nat) (p : Piece) : Piece :=
  let d := readRange files content (i * pieceLength) p.length
  if d.length = p.length then
    (if sha1 d = pieceHashes.getD i [] then p.markWritten else p.reset)
  else p

/-- Three existing files of sizes 1, 1, 2 — piece 0 of length 4 spans all
three. -/
def files3 : List FileItem := [⟨1, 0, true⟩, ⟨1, 1, true⟩, ⟨2, 2, true⟩]

/-- On-disk contents of `files3`, matching the nominal sizes. -/
def content3 : Nat → List Nat := fun j =>
  if j = 0 then [10] else if j = 1 then [11] else if j = 2 then [12, 13]
  else []

/-- Two existing files of size 2 each; two pieces of length 2. -/
def files2 : List FileItem := [⟨2, 0, true⟩, ⟨2, 2, true⟩]

/-- On-disk contents of `files2`, matching the nominal sizes. -/
def content2 : Nat → List Nat := fun j =>
  if j = 0 then [1, 2] else if j = 1 then [3, 4] else []

/-!
# Theorems

Each claim of the specification audit is settled by exactly one theorem
below (plus, where required, a separate closed counterexample and a
closed witness).
-/

/-- **C9.**  `Piece.mark_written`, called on any piece — also one whose
blocks are not all present — sets `present` to the piece's full length
(so `complete` becomes true by fiat), empties the block list, and makes
the `data` property yield `None` instead of the piece bytes. -/
theorem claim_C9_mark_written (p : Piece) :
    p.markWritten.present = p.length ∧
    p.markWritten.complete = true ∧
    p.markWritten.blocks = [] ∧
    p.markWritten.data = none := by
  refine ⟨rfl, ?_, rfl, rfl⟩
  simp [Piece.markWritten, Piece.complete]

/-- **C4** (the code side of the bug).  `Piece.add_block` does *not* raise
`NonSequentialBlock` on an already-filled slot: on a 2-block piece
(length 4, block size 2), adding the same 2-byte block for slot 0 twice
succeeds both times, double-counts `present` (the piece reports
`complete` with half its data missing), and a block whose slot index
equals `num_blocks` raises `IndexError` (the Python list assignment),
not `NonSequentialBlock`, because the bounds check uses
`block_index > len(self._blocks)`. -/
theorem claim_C4_add_block_slot_check :
    ((Piece.init 0 4 2).addBlock ⟨0, 0, 2, [7, 7]⟩).bind
        (fun p => p.addBlock ⟨0, 0, 2, [7, 7]⟩) =
      .ok ⟨0, 4, 4, 2, [⟨0, 0, 2, [7, 7]⟩, ⟨0, 2, 2, []⟩], false⟩ ∧
    (Piece.init 0 4 2).addBlock ⟨0, 4, 2, [7, 7]⟩ = .error .indexError := by
  refine ⟨rfl, rfl⟩

/-- **C2** (the code side of the bug).  With an incomplete one-piece
torrent, a peer that advertises piece 0, and no pending requests — a state
in which the claim requires `next_request_for_peer` to return a `Request`
— the call raises `AttributeError` (`piece.next_block` does not exist;
the `Request(...)` call would also pass four arguments to a
three-argument constructor). -/
theorem claim_C2_next_request_raises :
    (((Requester.init tor1).addAvailablePiece "A" 0).2.nextRequestForPeer
        "A").1 = .error .attributeError := by
  rfl

/-- **C3** (the code side of the bug).  `received_block` with an
out-of-range block index (index 1 on a 1-piece torrent) does not return
`False` leaving the state unchanged: it raises `KeyError` at the
unguarded `piece_peer_map[block.index]` lookup, *after* having already
recorded the bogus index in `peer_piece_map`. -/
theorem claim_C3_received_block_out_of_range :
    ((Requester.init tor1).receivedBlock sha1Ext "A" ⟨1, 0, 0, []⟩).1 =
      .error .keyError ∧
    ((Requester.init tor1).receivedBlock sha1Ext "A" ⟨1, 0, 0, []⟩).2.peerPieceMap
      "A" = [1] ∧
    (Requester.init tor1).peerPieceMap "A" = [] := by
  refine ⟨rfl, rfl, rfl⟩

/-- `set.add` puts the element in the set. -/
theorem listAdd_mem_self [DecidableEq α] (l : List α) (x : α) :
    x ∈ listAdd l x := by
  unfold listAdd
  split
  · assumption
  · simp

/-- `add_available_piece` never changes the torrent, and never changes which
keys `piece_peer_map` has. -/
theorem addAvailablePiece_preserves (st : Requester) (peer : String)
    (idx : Nat) :
    (st.addAvailablePiece peer idx).2.torrent = st.torrent ∧
    ∀ j, ((st.addAvailablePiece peer idx).2.piecePeerMap j).isSome =
      (st.piecePeerMap j).isSome := by
  unfold Requester.addAvailablePiece
  cases hm : st.piecePeerMap idx with
  | none => simp
  | some peers =>
    refine ⟨rfl, fun j => ?_⟩
    by_cases hj : j = idx <;> simp [hj, hm]

/-- If some set bit of the bitfield falls at or beyond `num_pieces`,
the bit loop of `add_peer_bitfield` raises `KeyError`. -/
theorem addPeerBitfieldFrom_oob (peer : String) :
    ∀ (bits : List Bool) (st : Requester) (start : Nat),
      (∀ j, (st.piecePeerMap j).isSome ↔ j < st.torrent.numPieces) →
      (∃ k, bits.getD k false = true ∧ st.torrent.numPieces ≤ start + k) →
      (st.addPeerBitfieldFrom peer start bits).1 = .error .keyError := by
  intro bits
  induction bits with
  | nil =>
    rintro st start _ ⟨k, hk, -⟩
    simp [List.getD] at hk
  | cons b rest ih =>
    rintro st start hdom ⟨k, hk, hge⟩
    by_cases hb : b = true
    · subst hb
      by_cases hstart : st.torrent.numPieces ≤ start
      · have hnone : st.piecePeerMap start = none := by
          have := hdom start
          cases hv : st.piecePeerMap start with
          | none => rfl
          | some v => simp [hv] at this; omega
        unfold Requester.addPeerBitfieldFrom Requester.addAvailablePiece
        rw [hnone]
        simp
      · have hlt : start < st.torrent.numPieces := by omega
        have hsome : (st.piecePeerMap start).isSome := by
          rw [hdom start]; exact hlt
        rcases Option.isSome_iff_exists.mp hsome with ⟨peers, hm⟩
        have hk0 : k ≠ 0 := by
          intro h0
          subst h0
          omega
        have hrest : rest.getD (k - 1) false = true := by
          cases k with
          | zero => exact absurd rfl hk0
          | succ k1 => simpa using hk
        have hpres := addAvailablePiece_preserves st peer start
        have hok : (Requester.addAvailablePiece st peer start).1 = .ok () := by
          unfold Requester.addAvailablePiece
          rw [hm]
        rcases hA : Requester.addAvailablePiece st peer start with ⟨r1, st1⟩
        rw [hA] at hpres hok
        simp only at hpres hok
        unfold Requester.addPeerBitfieldFrom
        rw [hA, hok]
        simp only [if_pos rfl]
        refine ih st1 (start + 1) ?_ ⟨k - 1, hrest, ?_⟩
        · intro j
          rw [hpres.2 j, hpres.1]
          exact hdom j
        · rw [hpres.1]
          omega
    · have hb0 : b = false := by simpa using hb
      subst hb0
      have hk0 : k ≠ 0 := by
        intro h0
        subst h0
        simp [List.getD] at hk
      have hrest : rest.getD (k - 1) false = true := by
        cases k with
        | zero => exact absurd rfl hk0
        | succ k1 => simpa using hk
      unfold Requester.addPeerBitfieldFrom
      simp only [Bool.false_eq_true, if_false]
      exact ih st (start + 1) hdom ⟨k - 1, hrest, by omega⟩

/-- **C10.**  `add_available_piece(peer, index)` is only defined for
`index < num_pieces`: for any state whose `piece_peer_map` has exactly the
initialized key range (as the constructor's state does), an out-of-range
index raises `KeyError` (nothing recorded, nothing silently discarded),
an in-range index records the advertisement in both maps; consequently
`add_peer_bitfield` raises `KeyError` for any bitfield with a set bit at
position `≥ num_pieces`; and the constructor initializes `piece_peer_map`
with exactly the keys `0 .. num_pieces - 1`. -/
theorem claim_C10_availability_maps (st : Requester) (peer : String)
    (idx : Nat) (bits : List Bool)
    (hdom : ∀ j, (st.piecePeerMap j).isSome ↔ j < st.torrent.numPieces) :
    (st.torrent.numPieces ≤ idx →
      st.addAvailablePiece peer idx = (.error .keyError, st)) ∧
    (idx < st.torrent.numPieces →
      (st.addAvailablePiece peer idx).1 = .ok () ∧
      peer ∈ ((st.addAvailablePiece peer idx).2.piecePeerMap idx).getD [] ∧
      idx ∈ (st.addAvailablePiece peer idx).2.peerPieceMap peer) ∧
    ((∃ k, bits.getD k false = true ∧ st.torrent.numPieces ≤ k) →
      (st.addPeerBitfield peer bits).1 = .error .keyError) ∧
    (∀ (t : Torrent) (j : Nat),
      ((Requester.init t).piecePeerMap j).isSome ↔ j < t.numPieces) := by
  refine ⟨?_, ?_, ?_, ?_⟩
  · intro hge
    have hnone : st.piecePeerMap idx = none := by
      have := hdom idx
      cases hv : st.piecePeerMap idx with
      | none => rfl
      | some v => simp [hv] at this; omega
    unfold Requester.addAvailablePiece
    rw [hnone]
  · intro hlt
    have hsome : (st.piecePeerMap idx).isSome := by
      rw [hdom idx]; exact hlt
    rcases Option.isSome_iff_exists.mp hsome with ⟨peers, hm⟩
    unfold Requester.addAvailablePiece
    rw [hm]
    refine ⟨rfl, ?_, ?_⟩
    · simp [listAdd_mem_self]
    · simp [listAdd_mem_self]
  · rintro ⟨k, hk, hge⟩
    exact addPeerBitfieldFrom_oob peer bits st 0 hdom ⟨k, hk, by omega⟩
  · intro t j
    by_cases hj : j < t.numPieces <;> simp [Requester.init, hj]

/-- Witness for C10 at a concrete input: on the freshly initialized
requester of the one-piece torrent, advertising piece 5 raises `KeyError`
and leaves the state unchanged. -/
theorem claim_C10_witness :
    (Requester.init tor1).addAvailablePiece "A" 5 =
      (.error .keyError, Requester.init tor1) :=
  (claim_C10_availability_maps (Requester.init tor1) "A" 5 [true, true]
    (fun j => by
      by_cases hj : j < (Requester.init tor1).torrent.numPieces <;>
        simp [Requester.init, hj])).1
    (by decide)

/-- The `del`-inside-loop idiom does nothing on an empty list. -/
theorem pyDelLoop_nil (p : α → Bool) (i : Nat) :
    pyDelLoop p [] i = ([], false) := by
  unfold pyDelLoop
  simp

/-- `next_request_for_peer` never changes the requester state: every
return happens before the (unreachable) `pending_requests.append`. -/
theorem nextRequestForPeer_state (st : Requester) (peer : String) :
    (st.nextRequestForPeer peer).2 = st := by
  unfold Requester.nextRequestForPeer
  split
  · rfl
  · split <;> rfl

/-- `add_available_piece` never touches `pending_requests`. -/
theorem addAvailablePiece_pending (st : Requester) (peer : String)
    (idx : Nat) :
    (st.addAvailablePiece peer idx).2.pendingRequests =
      st.pendingRequests := by
  unfold Requester.addAvailablePiece
  cases hm : st.piecePeerMap idx <;> simp [hm]

/-- `add_peer_bitfield` never touches `pending_requests`. -/
theorem addPeerBitfieldFrom_pending (peer : String) :
    ∀ (bits : List Bool) (st : Requester) (start : Nat),
      (st.addPeerBitfieldFrom peer start bits).2.pendingRequests =
        st.pendingRequests := by
  intro bits
  induction bits with
  | nil => intro st start; rfl
  | cons b rest ih =>
    intro st start
    unfold Requester.addPeerBitfieldFrom
    by_cases hb : b = true
    · subst hb
      rw [if_pos rfl]
      rcases hA : Requester.addAvailablePiece st peer start with ⟨r1, st1⟩
      have hpend : st1.pendingRequests = st.pendingRequests := by
        have hp := addAvailablePiece_pending st peer start
        rw [hA] at hp
        exact hp
      cases r1 with
      | ok a => rw [ih st1 (start + 1), hpend]
      | error e => simpa using hpend
    · have hb0 : b = false := by simpa using hb
      subst hb0
      simp only [Bool.false_eq_true, if_false]
      exact ih st (start + 1)

/-- Starting from an empty `pending_requests`, `received_block` leaves it
empty (it can only remove; with nothing pending the removal check fails
and the block is discarded). -/
theorem receivedBlock_pending_nil (sha1 : List Nat → List Nat)
    (st : Requester) (peer : String) (b : Block)
    (h : st.pendingRequests = []) :
    (st.receivedBlock sha1 peer b).2.pendingRequests = [] := by
  unfold Requester.receivedBlock
  cases hm : st.piecePeerMap b.index with
  | none => simp [hm, h]
  | some peers =>
    simp only [hm]
    split
    · exact h
    · cases hg : st.torrent.pieces.get? b.index with
      | none => simp [hg, h]
      | some piece =>
        simp only [hg]
        split
        · exact h
        · simp [Requester.removeRequest, h, pyDelLoop_nil]

/-- Starting from an empty `pending_requests`, `remove_peer` leaves it
empty. -/
theorem removePeer_pending_nil (st : Requester) (peer : String)
    (h : st.pendingRequests = []) :
    (st.removePeer peer).pendingRequests = [] := by
  unfold Requester.removePeer Requester.removePendingRequestsForPeer
  simp [h, pyDelLoop_nil]

/-- No scheduler event can populate `pending_requests`: additions only
happen in `next_request_for_peer` after the point where it raises. -/
theorem applyEvt_pending_nil (sha1 : List Nat → List Nat) (st : Requester)
    (e : Requester.Evt) (h : st.pendingRequests = []) :
    (Requester.applyEvt sha1 st e).pendingRequests = [] := by
  cases e with
  | addAvail peer i =>
    simpa [Requester.applyEvt] using
      (addAvailablePiece_pending st peer i).trans h
  | addBits peer bits =>
    simpa [Requester.applyEvt, Requester.addPeerBitfield] using
      (addPeerBitfieldFrom_pending peer bits st 0).trans h
  | recvBlock peer b =>
    simpa [Requester.applyEvt] using
      receivedBlock_pending_nil sha1 st peer b h
  | drop peer =>
    simpa [Requester.applyEvt] using removePeer_pending_nil st peer h
  | nextReq peer =>
    simpa [Requester.applyEvt, nextRequestForPeer_state] using h

/-- Running any event history from an empty `pending_requests` keeps it
empty. -/
theorem runEvts_pending_nil (sha1 : List Nat → List Nat) :
    ∀ (es : List Requester.Evt) (st : Requester),
      st.pendingRequests = [] →
      (Requester.runEvts sha1 st es).pendingRequests = [] := by
  intro es
  induction es with
  | nil => intro st h; exact h
  | cons e rest ih =>
    intro st h
    exact ih _ (applyEvt_pending_nil sha1 st e h)

/-- **C1.**  For every history of scheduler events
(`add_available_piece`, `add_peer_bitfield`, `received_block`,
`remove_peer`) interleaved with `next_request_for_peer` calls, the
`pending_requests` list never contains two `Request`s with the same
`(index, begin)` pair.  (In this source, `pending_requests` in fact stays
empty: `next_request_for_peer` raises `AttributeError` before its only
`append`, and every other operation only removes requests.) -/
theorem claim_C1_scheduler_request_uniqueness (sha1 : List Nat → List Nat)
    (t : Torrent) (es : List Requester.Evt) :
    (Requester.runEvts sha1 (Requester.init t) es).pendingRequests.Pairwise
      (fun a b => ¬(a.index = b.index ∧ a.begin_ = b.begin_)) := by
  rw [runEvts_pending_nil sha1 es (Requester.init t) rfl]
  exact List.Pairwise.nil

/-- **C8, counterexample.**  With the rotation `["u1", "u2"]`, an announce
that receives a failure-reason response raises `TrackerConnectionError`
*and removes the popped URL from the rotation*: afterwards the rotation is
`["u2"]` and `"u1"` is gone, contradicting the claim's "no URL removed
from the rotation by the failure". -/
theorem claim_C8_counterexample :
    TrackerConn.announce ⟨["u1", "u2"], 60, 5⟩ "" (some ⟨some [102], none, none⟩) =
      (.error .trackerConnectionError, ⟨["u2"], 60, 5⟩) ∧
    "u1" ∉ (⟨["u2"], 60, 5⟩ : TrackerConn).announceUrls := by
  refine ⟨rfl, by decide⟩

/-- **C8, amended.**  When an announce receives a response carrying a
failure reason, the announcer raises `TrackerConnectionError` with the
failing URL *dropped* from the front of the rotation (so the retry — which
happens immediately via `continue`, not at the next tick, without
sleeping and with the event preserved — uses the next URL); and
`NoTrackersError` is raised exactly when the rotation is empty. -/
theorem claim_C8_tracker_rotation (st : TrackerConn) (event : String)
    (r : TrackerResp) (u : String) (rest : List String)
    (hurls : st.announceUrls = u :: rest) (hfail : r.failed = true) :
    st.announce event (some r) =
      (.error .trackerConnectionError, { st with announceUrls := rest }) ∧
    st.recurringStep event (some r) =
      .ok ({ st with announceUrls := rest }, event, false, none) ∧
    ∀ (st2 : TrackerConn) (e2 : String) (o2 : Option TrackerResp),
      (st2.announce e2 o2).1 = .error .noTrackersError ↔
        st2.announceUrls = [] := by
  have hann : st.announce event (some r) =
      (.error .trackerConnectionError, { st with announceUrls := rest }) := by
    unfold TrackerConn.announce
    rw [hurls]
    simp [hfail]
  refine ⟨hann, ?_, ?_⟩
  · unfold TrackerConn.recurringStep
    rw [hann]
  · intro st2 e2 o2
    unfold TrackerConn.announce
    cases hu : st2.announceUrls with
    | nil => simp [hu]
    | cons v vs =>
      simp only [List.cons_ne_nil, iff_false]
      intro hcontra
      cases o2 with
      | none => simp at hcontra
      | some r2 =>
        by_cases hf : r2.failed = true
        · simp [hf] at hcontra
        · simp only [hf, Bool.false_eq_true, if_false] at hcontra
          split at hcontra <;> (try split at hcontra) <;> simp at hcontra

/-- Witness for C8 at a concrete input: a failure response on the front
URL of `["a", "b"]` raises `TrackerConnectionError` and leaves only
`["b"]` in the rotation. -/
theorem claim_C8_witness :
    TrackerConn.announce ⟨["a", "b"], 60, 1⟩ ""
        (some ⟨some [120], none, none⟩) =
      (.error .trackerConnectionError, ⟨["b"], 60, 1⟩) :=
  (claim_C8_tracker_rotation ⟨["a", "b"], 60, 1⟩ "" ⟨some [120], none, none⟩
    "a" ["b"] rfl rfl).1

/-- `struct.unpack(">I", struct.pack(">I", n)) == n` for `n < 2^32`. -/
theorem beVal_u32be (n : Nat) (h : n < 2 ^ 32) : beVal (u32be n) = n := by
  simp only [beVal, u32be, List.foldl]
  omega

/-- `struct.pack("{n}s", b)` always yields exactly `n` bytes. -/
theorem packBytes_length (n : Nat) (b : List Nat) :
    (packBytes n b).length = n := by
  simp only [packBytes, List.length_append, List.length_take,
    List.length_replicate]
  omega

/-- The u32 length prefix each `encode()` writes equals the byte count of
the body that follows it — including for `Bitfield`, whose prefix counts
bits but whose body is also padded out to one byte per bit. -/
theorem encode_prefix_is_body_length (M : Msg) :
    M.encode.take 4 = u32be (M.encode.drop 4).length := by
  cases M with
  | keepAlive => rfl
  | choke => rfl
  | unchoke => rfl
  | interested => rfl
  | notInterested => rfl
  | haveMsg i => rfl
  | request i b l => rfl
  | cancel i b l => rfl
  | block i b d =>
    show u32be (9 + d.length) = u32be (7 :: (u32be i ++ u32be b ++ d)).length
    have hl : (7 :: (u32be i ++ u32be b ++ d)).length = 9 + d.length := by
      simp only [List.length_cons, List.length_append, u32be,
        List.length_cons, List.length_nil]
      omega
    rw [hl]
  | bitfield bs =>
    show u32be (1 + bs.length) =
      u32be (5 :: packBytes bs.length (bitsToBytes bs)).length
    have hl : (5 :: packBytes bs.length (bitsToBytes bs)).length =
        1 + bs.length := by
      simp only [List.length_cons, packBytes_length]
      omega
    rw [hl]

/-- **C6, counterexample.**  The claim fails at the eight-bit bitfield
`10000000`: `Bitfield.encode` packs the *bit* count into the `{n}s` width,
zero-padding `tobytes()` to eight bytes, so decoding the frame body yields
a 64-bit bitfield, not the original message. -/
theorem claim_C6_counterexample :
    Msg.decodeBody ((Msg.encode (.bitfield
        [true, false, false, false, false, false, false, false])).drop 4) ≠
      .ok (.bitfield [true, false, false, false, false, false, false,
        false]) := by
  intro h
  have h1 : Except.ok (Msg.bitfield
      (bytesToBits [128, 0, 0, 0, 0, 0, 0, 0])) = (Except.ok (Msg.bitfield
      [true, false, false, false, false, false, false, false]) :
      Except PyErr Msg) := h
  exact absurd (Except.ok.inj h1) (by decide)

/-- **C6, amended.**  For every framed wire-message kind with well-formed
fields *except a nonempty `Bitfield`*, decoding the encoded frame's body
yields back the original message; and (for every message, nonempty
bitfields included) the u32 length prefix written by `encode` equals the
byte count of the body following it.  (`bencode` determinism-style caveats
do not apply here: `encode` is a function of the message.) -/
theorem claim_C6_codec_roundtrip (M : Msg) (hwf : M.WellFormed)
    (hbf : ∀ bs, M = .bitfield bs → bs = []) :
    Msg.decodeBody (M.encode.drop 4) = .ok M ∧
    ∀ M2 : Msg, M2.encode.take 4 = u32be (M2.encode.drop 4).length := by
  refine ⟨?_, encode_prefix_is_body_length⟩
  cases M with
  | keepAlive => rfl
  | choke => rfl
  | unchoke => rfl
  | interested => rfl
  | notInterested => rfl
  | haveMsg i =>
    have h1 : i < 2 ^ 32 := hwf
    show Except.ok (Msg.haveMsg (beVal (u32be i))) = .ok (.haveMsg i)
    rw [beVal_u32be i h1]
  | request i b l =>
    obtain ⟨h1, h2, h3⟩ := hwf
    show Except.ok (Msg.request (beVal (u32be i)) (beVal (u32be b))
        (beVal (u32be l))) = .ok (.request i b l)
    rw [beVal_u32be i h1, beVal_u32be b h2, beVal_u32be l h3]
  | cancel i b l =>
    obtain ⟨h1, h2, h3⟩ := hwf
    show Except.ok (Msg.cancel (beVal (u32be i)) (beVal (u32be b))
        (beVal (u32be l))) = .ok (.cancel i b l)
    rw [beVal_u32be i h1, beVal_u32be b h2, beVal_u32be l h3]
  | block i b d =>
    obtain ⟨h1, h2, -⟩ := hwf
    show Except.ok (Msg.block (beVal (u32be i)) (beVal (u32be b)) d) =
      .ok (.block i b d)
    rw [beVal_u32be i h1, beVal_u32be b h2]
  | bitfield bs =>
    have hbs : bs = [] := hbf bs rfl
    subst hbs
    rfl

/-- Witness for C6 at a concrete input: `Request(1, 2, 3)` round-trips. -/
theorem claim_C6_witness :
    Msg.decodeBody ((Msg.encode (.request 1 2 3)).drop 4) =
      .ok (.request 1 2 3) :=
  (claim_C6_codec_roundtrip (.request 1 2 3) (by refine ⟨?_, ?_, ?_⟩ <;> decide)
    (fun bs h => Msg.noConfusion h)).1

/-! ### Bencode round-trip machinery (C7) -/

/-- `_parse_num` consumes exactly a digit run followed by the delimiter. -/
theorem parseNumAux_spec (delim : Nat) (hdel : isDigitB delim = false) :
    ∀ (ds acc rest : List Nat), ds ≠ [] → (∀ d ∈ ds, isDigitB d = true) →
      parseNumAux delim acc (ds ++ delim :: rest) =
        .ok (pyInt (acc ++ ds), rest) := by
  intro ds
  induction ds with
  | nil => intro acc rest hne; exact absurd rfl hne
  | cons d ds ih =>
    intro acc rest _ hdig
    have hd : isDigitB d = true := hdig d (by simp)
    show parseNumAux delim acc (d :: (ds ++ delim :: rest)) = _
    simp only [parseNumAux]
    rw [if_pos hd]
    cases hds : ds with
    | nil =>
      subst hds
      simp only [parseNumAux]
      rw [if_neg (by simp [hdel]), if_pos (by simp)]
      simp
    | cons d2 ds2 =>
      rw [← hds]
      rw [ih (acc ++ [d]) rest (by simp [hds]) (fun x hx => hdig x (by simp [hx]))]
      simp

/-- Every character `str(n)` produces is an ASCII digit. -/
theorem natDigitsAux_digits :
    ∀ (fuel n : Nat), n < fuel →
      ∀ d ∈ natDigitsAux fuel n, isDigitB d = true := by
  intro fuel
  induction fuel with
  | zero => intro n hn; omega
  | succ f ih =>
    intro n hn d hd
    rw [natDigitsAux] at hd
    by_cases h10 : n < 10
    · rw [if_pos h10] at hd
      simp at hd
      simp [hd, isDigitB]
      omega
    · rw [if_neg h10] at hd
      simp at hd
      rcases hd with hd | hd
      · exact ih (n / 10) (by omega) d hd
      · simp [hd, isDigitB]
        omega

/-- `str(n)` is never empty. -/
theorem natDigitsAux_ne_nil :
    ∀ (fuel n : Nat), n < fuel → natDigitsAux fuel n ≠ [] := by
  intro fuel
  induction fuel with
  | zero => intro n hn; omega
  | succ f ih =>
    intro n hn
    rw [natDigitsAux]
    by_cases h10 : n < 10
    · simp [h10]
    · rw [if_neg h10]
      simp

/-- `int(str(n)) == n`. -/
theorem pyInt_natDigitsAux :
    ∀ (fuel n : Nat), n < fuel → pyInt (natDigitsAux fuel n) = n := by
  intro fuel
  induction fuel with
  | zero => intro n hn; omega
  | succ f ih =>
    intro n hn
    rw [natDigitsAux]
    by_cases h10 : n < 10
    · rw [if_pos h10]
      simp [pyInt]
    · rw [if_neg h10]
      have hrec := ih (n / 10) (by omega)
      simp only [pyInt] at hrec ⊢
      rw [List.foldl_append]
      rw [hrec]
      simp
      omega

/-- Python's string order is irreflexive. -/
theorem pyStrLt_irrefl : ∀ (a : List Nat), pyStrLt a a = false := by
  intro a
  induction a with
  | nil => rfl
  | cons x xs ih => simp [pyStrLt, ih]

/-- A strictly increasing key list is `Pairwise`-below. -/
theorem strictKeys_pairwise :
    ∀ (l : List (List Nat)), strictKeys l = true →
      l.Pairwise (fun a b => pyStrLt a b = true) := by
  intro l
  induction l with
  | nil => intro _; exact List.Pairwise.nil
  | cons k ks ih =>
    intro h
    rw [strictKeys, Bool.and_eq_true, List.all_eq_true] at h
    exact List.Pairwise.cons (fun b hb => h.1 b hb) (ih h.2)

/-- A `Pairwise`-below key list passes the decoder's
`keys == sorted(keys)` check. -/
theorem keysNondec_of_pairwise :
    ∀ (l : List (List Nat)),
      l.Pairwise (fun a b => pyStrLt a b = true) → keysNondec l = true := by
  intro l
  induction l with
  | nil => intro _; rfl
  | cons k ks ih =>
    intro h
    rcases h with - | ⟨hk, hks⟩
    cases ks with
    | nil => rfl
    | cons k2 t =>
      rw [keysNondec, Bool.and_eq_true]
      exact ⟨by simp [hk k2 (by simp)], ih hks⟩

mutual

/-- Decoding fuel bound: a value's measure is below twice its encoded
length. -/
theorem sizeB_le (v : BVal) : sizeB v + 1 ≤ 2 * (encodeVal v).length := by
  cases v with
  | int n =>
    simp only [sizeB, encodeVal, List.length_cons, List.length_append]
    omega
  | str s =>
    simp only [sizeB, encodeVal, encodeStr, List.length_append,
      List.length_cons]
    omega
  | list xs =>
    have h := sizeItems_le xs
    simp only [sizeB, encodeVal, List.length_cons, List.length_append]
    omega
  | dict es =>
    have h := sizeEntries_le es
    simp only [sizeB, encodeVal, List.length_cons, List.length_append]
    omega

/-- Decoding fuel bound for list items. -/
theorem sizeItems_le (xs : List BVal) :
    sizeItems xs ≤ 2 + 2 * (encodeItems xs).length := by
  cases xs with
  | nil => simp [sizeItems, encodeItems]
  | cons x xs =>
    have h1 := sizeB_le x
    have h2 := sizeItems_le xs
    simp only [sizeItems, encodeItems, List.length_append]
    omega

/-- Decoding fuel bound for dict entries. -/
theorem sizeEntries_le (es : List (List Nat × BVal)) :
    sizeEntries es ≤ 2 + 2 * (encodeEntries es).length := by
  cases es with
  | nil => simp [sizeEntries, encodeEntries]
  | cons kv es =>
    rcases kv with ⟨k, v⟩
    have h1 := sizeB_le v
    have h2 := sizeEntries_le es
    have h3 : 1 ≤ (encodeStr k).length := by
      simp [encodeStr]
      omega
    simp only [sizeEntries, encodeEntries, List.length_append]
    omega

end

/-- `_decode` on a terminator byte returns Python's `None`. -/
theorem decodeVal_close (f : Nat) (rest : List Nat) (h : 1 ≤ f) :
    decodeVal f (101 :: rest) = .ok (none, rest) := by
  obtain ⟨g, rfl⟩ : ∃ g, f = g + 1 := ⟨f - 1, by omega⟩
  simp [decodeVal]

/-- `_decode` undoes `_encode_str`. -/
theorem decodeVal_str (k : List Nat) :
    ∀ (f : Nat) (rest : List Nat), 1 ≤ f →
      decodeVal f (encodeStr k ++ rest) = .ok (some (.str k), rest) := by
  intro f rest hf
  obtain ⟨g, rfl⟩ : ∃ g, f = g + 1 := ⟨f - 1, by omega⟩
  obtain ⟨d, ds, hds⟩ : ∃ d ds, natDigits k.length = d :: ds := by
    cases h : natDigits k.length with
    | nil => exact absurd h (natDigitsAux_ne_nil _ _ (by omega))
    | cons d ds => exact ⟨d, ds, rfl⟩
  have hdig : ∀ x ∈ natDigits k.length, isDigitB x = true :=
    natDigitsAux_digits _ _ (by omega)
  have hd : isDigitB d = true := hdig d (by rw [hds]; simp)
  have hd48 : 48 ≤ d ∧ d ≤ 57 := by simpa [isDigitB] using hd
  have henc : encodeStr k ++ rest = d :: (ds ++ (58 :: (k ++ rest))) := by
    simp [encodeStr, hds]
  rw [henc]
  simp only [decodeVal]
  rw [if_neg (by omega), if_neg (by omega), if_pos hd]
  rw [show d :: (ds ++ (58 :: (k ++ rest))) =
    natDigits k.length ++ (58 :: (k ++ rest)) by rw [hds]; rfl]
  rw [parseNumAux_spec 58 (by decide) (natDigits k.length) [] (k ++ rest)
    (by rw [hds]; simp) hdig]
  have hlen : pyInt ([] ++ natDigits k.length) = k.length := by
    simpa [natDigits] using pyInt_natDigitsAux (k.length + 1) k.length (by omega)
  rw [hlen]
  simp [List.take_left, List.drop_left]

mutual

/-- `_decode` undoes `_encode` on every well-formed value, leaving any
suffix unconsumed, given fuel at least the value's measure. -/
theorem decodeVal_encodeVal (v : BVal) (hwf : wfB v = true) :
    ∀ (fuel : Nat) (rest : List Nat), sizeB v ≤ fuel →
      decodeVal fuel (encodeVal v ++ rest) = .ok (some v, rest) := by
  cases v with
  | int n =>
    intro fuel rest hfuel
    obtain ⟨f, rfl⟩ : ∃ f, fuel = f + 1 :=
      ⟨fuel - 1, by simp [sizeB] at hfuel; omega⟩
    have h0 : (0 : Int) ≤ n := by simpa [wfB] using hwf
    have hneg : ¬ n < 0 := by omega
    have hds1 := natDigitsAux_ne_nil (n.toNat + 1) n.toNat (by omega)
    have hds2 := natDigitsAux_digits (n.toNat + 1) n.toNat (by omega)
    have henc : encodeVal (.int n) ++ rest =
        105 :: (natDigits n.toNat ++ (101 :: rest)) := by
      simp [encodeVal, intDigits, hneg, natDigits]
    rw [henc]
    simp only [decodeVal]
    rw [if_neg (by decide), if_true]
    rw [parseNumAux_spec 101 (by decide) (natDigits n.toNat) [] rest
      (by simpa [natDigits] using hds1) (by simpa [natDigits] using hds2)]
    have hval : pyInt ([] ++ natDigits n.toNat) = n.toNat := by
      simpa [natDigits] using pyInt_natDigitsAux (n.toNat + 1) n.toNat (by omega)
    rw [hval]
    simp [Int.toNat_of_nonneg h0]
  | str s =>
    intro fuel rest hfuel
    exact decodeVal_str s fuel rest (by simp [sizeB] at hfuel; omega)
  | list xs =>
    intro fuel rest hfuel
    obtain ⟨f, rfl⟩ : ∃ f, fuel = f + 1 :=
      ⟨fuel - 1, by simp [sizeB] at hfuel; omega⟩
    have hwf1 : wfItems xs = true := by simpa [wfB] using hwf
    have henc : encodeVal (.list xs) ++ rest =
        108 :: (encodeItems xs ++ 101 :: rest) := by
      simp [encodeVal]
    rw [henc]
    simp only [decodeVal]
    rw [if_neg (by decide), if_neg (by decide), if_neg (by decide),
      if_neg (by decide), if_true]
    rw [decodeList_encodeItems xs hwf1 f rest []
      (by simp [sizeB] at hfuel; omega)]
    simp
  | dict es =>
    intro fuel rest hfuel
    obtain ⟨f, rfl⟩ : ∃ f, fuel = f + 1 :=
      ⟨fuel - 1, by simp [sizeB] at hfuel; omega⟩
    have hwf1 : wfEntries es = true := by
      have := hwf
      simp [wfB, Bool.and_eq_true] at this
      exact this.2
    have hpair : ((([] : List (List Nat × BVal)).map Prod.fst) ++
        es.map Prod.fst).Pairwise (fun a b => pyStrLt a b = true) := by
      simp only [List.map_nil, List.nil_append]
      refine strictKeys_pairwise (es.map Prod.fst) ?_
      have := hwf
      simp [wfB, Bool.and_eq_true] at this
      exact this.1
    have henc : encodeVal (.dict es) ++ rest =
        100 :: (encodeEntries es ++ 101 :: rest) := by
      simp [encodeVal]
    rw [henc]
    simp only [decodeVal]
    rw [if_neg (by decide), if_neg (by decide), if_neg (by decide),
      if_true]
    rw [show ([] : List (List Nat)) = (([] : List (List Nat × BVal)).map
      Prod.fst) from rfl]
    rw [decodeDict_encodeEntries es hwf1 f rest []
      (by simp [sizeB] at hfuel; omega) hpair]
    simp

/-- The decoder's list loop undoes `encodeItems` and consumes the
terminator, appending the decoded items to the accumulator. -/
theorem decodeList_encodeItems (xs : List BVal) (hwf : wfItems xs = true) :
    ∀ (fuel : Nat) (rest : List Nat) (acc : List BVal),
      sizeItems xs ≤ fuel →
      decodeList fuel (encodeItems xs ++ 101 :: rest) acc =
        .ok (some (.list (acc ++ xs)), rest) := by
  cases xs with
  | nil =>
    intro fuel rest acc hfuel
    obtain ⟨f, rfl⟩ : ∃ f, fuel = f + 1 :=
      ⟨fuel - 1, by simp [sizeItems] at hfuel; omega⟩
    simp only [encodeItems, List.nil_append, decodeList]
    rw [decodeVal_close f rest (by simp [sizeItems] at hfuel; omega)]
    simp
  | cons x xs =>
    intro fuel rest acc hfuel
    obtain ⟨f, rfl⟩ : ∃ f, fuel = f + 1 :=
      ⟨fuel - 1, by simp [sizeItems] at hfuel; omega⟩
    simp only [sizeItems] at hfuel
    rw [wfItems, Bool.and_eq_true, Bool.and_eq_true] at hwf
    obtain ⟨⟨htru, hx⟩, hxs⟩ := hwf
    have henc : encodeItems (x :: xs) ++ 101 :: rest =
        encodeVal x ++ (encodeItems xs ++ 101 :: rest) := by
      simp [encodeItems]
    rw [henc]
    simp only [decodeList]
    rw [decodeVal_encodeVal x hx f (encodeItems xs ++ 101 :: rest)
      (by omega)]
    simp only [htru, Bool.not_true, Bool.false_eq_true, if_false]
    rw [decodeList_encodeItems xs hxs f rest (acc ++ [x]) (by omega)]
    simp

/-- The decoder's dict loop undoes `encodeEntries` and consumes the
terminator, under the running `setdefault`/sorted-keys invariant. -/
theorem decodeDict_encodeEntries (es : List (List Nat × BVal))
    (hwf : wfEntries es = true) :
    ∀ (fuel : Nat) (rest : List Nat) (entries : List (List Nat × BVal)),
      sizeEntries es ≤ fuel →
      ((entries.map Prod.fst) ++ es.map Prod.fst).Pairwise
        (fun a b => pyStrLt a b = true) →
      decodeDict fuel (encodeEntries es ++ 101 :: rest)
          (entries.map Prod.fst) entries =
        .ok (some (.dict (entries ++ es)), rest) := by
  cases es with
  | nil =>
    intro fuel rest entries hfuel hpair
    obtain ⟨f, rfl⟩ : ∃ f, fuel = f + 1 :=
      ⟨fuel - 1, by simp [sizeEntries] at hfuel; omega⟩
    simp only [encodeEntries, List.nil_append, decodeDict]
    rw [decodeVal_close f rest (by simp [sizeEntries] at hfuel; omega)]
    have hnd : keysNondec (entries.map Prod.fst) = true := by
      refine keysNondec_of_pairwise _ ?_
      simpa using hpair
    simp [hnd]
  | cons kv es =>
    rcases kv with ⟨k, v⟩
    intro fuel rest entries hfuel hpair
    obtain ⟨f, rfl⟩ : ∃ f, fuel = f + 1 :=
      ⟨fuel - 1, by simp [sizeEntries] at hfuel; omega⟩
    simp only [sizeEntries] at hfuel
    rw [wfEntries, Bool.and_eq_true, Bool.and_eq_true] at hwf
    obtain ⟨⟨hk, hv⟩, hes⟩ := hwf
    have henc : encodeEntries ((k, v) :: es) ++ 101 :: rest =
        encodeStr k ++ (encodeVal v ++ (encodeEntries es ++ 101 :: rest)) := by
      simp [encodeEntries]
    rw [henc]
    simp only [decodeDict]
    rw [decodeVal_str k f _ (by omega)]
    simp only [BVal.truthy, hk, Bool.not_true, Bool.false_eq_true, if_false]
    rw [decodeVal_encodeVal v hv f (encodeEntries es ++ 101 :: rest)
      (by omega)]
    have hknot : k ∉ entries.map Prod.fst := by
      intro hmem
      have hlt := (List.pairwise_append.mp hpair).2.2 k hmem k (by simp)
      rw [pyStrLt_irrefl] at hlt
      exact absurd hlt (by simp)
    simp only [if_neg hknot]
    have hpair2 : (((entries ++ [(k, v)]).map Prod.fst) ++
        es.map Prod.fst).Pairwise (fun a b => pyStrLt a b = true) := by
      simpa [List.append_assoc] using hpair
    have hrec := decodeDict_encodeEntries es hes f rest
      (entries ++ [(k, v)]) (by omega) hpair2
    rw [show (entries.map Prod.fst) ++ [k] =
      (entries ++ [(k, v)]).map Prod.fst by simp]
    rw [hrec]
    simp

end

/-- **C7, counterexample.**  The claim fails at `V = [0]`: the decoder's
list loop runs `if not item: break`, so the falsy element `0` terminates
the list early and `bdecode(bencode([0]))` returns `[]`, not `[0]`. -/
theorem claim_C7_counterexample :
    bdecode (bencode (.list [.int 0])) ≠ .ok (some (.list [.int 0])) := by
  intro h
  have h1 : (Except.ok (some (BVal.list [])) : Except PyErr (Option BVal)) =
      .ok (some (.list [.int 0])) := h
  simp at h1

/-- **C7, amended.**  For every bencodable value whose integers are all
nonnegative, whose dictionary keys are nonempty byte strings in strictly
increasing order, and in which every list element is truthy (not `0`,
not an empty string/list/dict), `bdecode(bencode(V)) == V`.  Dictionary
values may be falsy: the dict loop's `if not key: break` tests only the
key, so `{"a": 0}` round-trips.  (`bencode` is byte-for-byte
deterministic by construction: `_encode` is a pure function of the
value, as is its model `encodeVal`.)  Negative integers fail because
`_parse_num` rejects the minus sign; a falsy list element terminates the
decoder's list loop early, which the counterexample exhibits; a falsy
(empty) or unsorted key terminates or rejects the dict. -/
theorem claim_C7_bencode_roundtrip (v : BVal) (hwf : wfB v = true) :
    bdecode (bencode v) = .ok (some v) := by
  unfold bdecode bencode
  have h := decodeVal_encodeVal v hwf (2 * (encodeVal v).length + 2) []
    (by have := sizeB_le v; omega)
  rw [List.append_nil] at h
  rw [h]
  rfl

/-- Witness for C7 at a concrete input: the two-entry dictionary
`d1:ai0e1:b2:hie` — note the falsy value `0` under key `a` — round-trips. -/
theorem claim_C7_witness :
    bdecode (bencode (.dict [([97], .int 0), ([98], .str [104, 105])])) =
      .ok (some (.dict [([97], .int 0), ([98], .str [104, 105])])) :=
  claim_C7_bencode_roundtrip
    (.dict [([97], .int 0), ([98], .str [104, 105])]) (by decide)

/-- **C5, counterexample.**  A piece that spans three files: sizes 1, 1, 2
with the piece of length 4 at offset 0.  The spec-side File-map read
returns the full 4 bytes and (with the digest equal to
`piece_hashes[0]` by construction) the claim demands the piece be marked
written; but `check_existing_pieces` only spans *two* files — its read
stops after files 0 and 1 with 2 of 4 bytes — so the piece stays
unwritten. -/
theorem claim_C5_counterexample :
    checkExistingPieces sha1Ext files3 content3 4 [List.replicate 20 0]
        [Piece.init 0 4 4] = .ok [Piece.init 0 4 4] ∧
    (Piece.init 0 4 4).written = false ∧
    readRange files3 content3 (0 * 4) (Piece.init 0 4 4).length =
      [10, 11, 12, 13] ∧
    (Piece.init 0 4 4).length = 4 ∧
    sha1Ext [10, 11, 12, 13] =
      ([List.replicate 20 0] : List (List Nat)).getD 0 [] := by
  refine ⟨rfl, rfl, rfl, rfl, rfl⟩

/-- The locate walk lands on the file containing `off`, given coherent
cumulative offsets and positive sizes.  `rest` is the suffix of `files`
after position `j`, where file `f` sits. -/
theorem fileForOffsetGo_correct :
    ∀ (rest files : List FileItem) (j : Nat) (f : FileItem) (off : Nat),
      files.get? j = some f →
      (∀ m, files.get? (j + 1 + m) = rest.get? m) →
      f.offset ≤ off →
      offsetsOkB (f.offset + f.size) rest = true →
      (∀ g ∈ rest, 0 < g.size) →
      off < f.offset + f.size + sumSizes rest →
      ∃ (j2 : Nat) (f2 : FileItem),
        fileForOffsetGo off j f rest = (j2, off - f2.offset) ∧
        files.get? j2 = some f2 ∧ f2.offset ≤ off ∧
        off < f2.offset + f2.size := by
  intro rest
  induction rest with
  | nil =>
    intro files j f off hj _ hle _ _ hlt
    refine ⟨j, f, rfl, hj, hle, ?_⟩
    simpa [sumSizes] using hlt
  | cons g rest ih =>
    intro files j f off hj hsuffix hle hok hpos hlt
    rw [offsetsOkB, Bool.and_eq_true, beq_iff_eq] at hok
    obtain ⟨hgoff, hok2⟩ := hok
    rw [fileForOffsetGo]
    by_cases hg : g.offset ≤ off
    · rw [if_pos hg]
      refine ih files (j + 1) g off ?_ ?_ hg ?_ ?_ ?_
      · have h0 := hsuffix 0
        simpa using h0
      · intro m
        have h1 := hsuffix (m + 1)
        rw [List.get?_cons_succ] at h1
        rw [show j + 1 + 1 + m = j + 1 + (m + 1) by omega]
        exact h1
      · rw [hgoff]
        exact hok2
      · exact fun x hx => hpos x (by simp [hx])
      · have hsum : sumSizes (g :: rest) = g.size + sumSizes rest := by
          simp [sumSizes]
        omega
    · rw [if_neg hg]
      refine ⟨j, f, rfl, hj, hle, by omega⟩

/-- `file_for_offset` correctness: for `off` inside the torrent, it
returns the index of the file containing `off` and the local offset
inside it. -/
theorem fileForOffset_correct (files : List FileItem) (off : Nat)
    (hoff : offsetsOkB 0 files = true)
    (hpos : ∀ g ∈ files, 0 < g.size)
    (hlt : off < sumSizes files) :
    ∃ f, files.get? (fileForOffset files off).1 = some f ∧
      (fileForOffset files off).2 = off - f.offset ∧
      f.offset ≤ off ∧ off < f.offset + f.size := by
  cases files with
  | nil => simp [sumSizes] at hlt
  | cons f0 rest =>
    rw [offsetsOkB, Bool.and_eq_true, beq_iff_eq] at hoff
    obtain ⟨h0, hok⟩ := hoff
    have hsum : sumSizes (f0 :: rest) = f0.size + sumSizes rest := by
      simp [sumSizes]
    obtain ⟨j2, f2, hgo, hget, hle2, hlt2⟩ :=
      fileForOffsetGo_correct rest (f0 :: rest) 0 f0 off (by simp)
        (fun m => by rw [show 0 + 1 + m = m + 1 by omega]; simp) (by omega)
        (by rw [h0]; simpa using hok)
        (fun g hg => hpos g (by simp [hg]))
        (by omega)
    refine ⟨f2, ?_, ?_, hle2, hlt2⟩
    · rw [show fileForOffset (f0 :: rest) off = fileForOffsetGo off 0 f0 rest
        from rfl, hgo]
      exact hget
    · rw [show fileForOffset (f0 :: rest) off = fileForOffsetGo off 0 f0 rest
        from rfl, hgo]

/-- Reading zero bytes yields nothing. -/
theorem readRangeGo_zero_n (files : List FileItem)
    (content : Nat → List Nat) (fuel j pos : Nat) :
    readRangeGo files content fuel j pos 0 = [] := by
  cases fuel <;> simp [readRangeGo]

/-- `check_existing_pieces` computes, per piece, exactly the claim's
specification *restricted to a two-file span*: under coherent offsets,
positive sizes, on-disk contents matching nominal sizes, an in-range
piece spanning at most two files, the per-piece body returns the
spec-side result. -/
theorem checkOnePiece_spec (sha1 : List Nat → List Nat)
    (files : List FileItem) (content : Nat → List Nat) (L : Nat)
    (hashes : List (List Nat)) (i : Nat) (p : Piece)
    (hoff : offsetsOkB 0 files = true)
    (hpos : ∀ g ∈ files, 0 < g.size)
    (hdisk : ∀ j f, files.get? j = some f → f.fexists = true →
      (content j).length = f.size)
    (hplen : 0 < p.length)
    (hrange : i * L + p.length ≤ sumSizes files)
    (hspan : (fileForOffset files (i * L)).2 + p.length ≤
      (files.get? (fileForOffset files (i * L)).1).elim 0 FileItem.size +
      (files.get? ((fileForOffset files (i * L)).1 + 1)).elim 0
        FileItem.size)
    (hhash : i < hashes.length) :
    checkOnePiece sha1 files content L hashes i p =
      .ok (resumeSpecPiece sha1 files content L hashes i p) := by
  obtain ⟨f, hget, hfo2, hle, hlt⟩ :=
    fileForOffset_correct files (i * L) hoff hpos (by omega)
  rcases hloc : fileForOffset files (i * L) with ⟨fi, fo⟩
  rw [hloc] at hget hfo2 hspan
  simp only at hget hfo2 hspan
  obtain ⟨h, hh⟩ : ∃ h, hashes.get? i = some h := ⟨_, List.get?_eq_get hhash⟩
  have hgetD : hashes.getD i [] = h := by
    rw [List.getD_eq_getElem?_getD, ← List.get?_eq_getElem?, hh]
    rfl
  have hfsz : fo < f.size := by omega
  have hclen0 : f.fexists = true →
      (content fi).length = f.size := hdisk fi f hget
  obtain ⟨F, hF⟩ : ∃ F, files.length = F + 1 := by
    cases hfl : files with
    | nil => rw [hfl] at hget; simp at hget
    | cons a t => exact ⟨t.length, by simp⟩
  simp only [checkOnePiece, resumeSpecPiece, readRange, hloc]
  simp only [hget]
  by_cases hfe : f.fexists = true
  · -- the first file is present on disk
    have hclen := hclen0 hfe
    simp only [hfe, Bool.not_true, Bool.false_eq_true, if_false]
    by_cases hsp : fo + p.length > f.size
    · -- the piece spans into the next file
      obtain ⟨g, hgget, hg2⟩ : ∃ g, files.get? (fi + 1) = some g ∧
          fo + p.length ≤ f.size + g.size := by
        cases hg : files.get? (fi + 1) with
        | none =>
          exfalso
          rw [hget, hg] at hspan
          simp only [Option.elim] at hspan
          omega
        | some g =>
          rw [hget, hg] at hspan
          simp only [Option.elim] at hspan
          exact ⟨g, rfl, by omega⟩
      rw [if_pos hsp]
      simp only [hgget]
      have hwant1 : min p.length (f.size - fo) = f.size - fo :=
        Nat.min_eq_right (by omega)
      have hc1full : ¬ ((List.take (f.size - fo)
          (List.drop fo (content fi))).length < f.size - fo) := by
        simp only [List.length_take, List.length_drop, hclen]
        omega
      by_cases hgfe : g.fexists = true
      · -- both files readable: the code reads the full piece
        have hgclen := hdisk (fi + 1) g hgget hgfe
        have hwant2 : min (p.length - (f.size - fo)) (g.size - 0) =
            p.length - (f.size - fo) := Nat.min_eq_left (by omega)
        have hc2full : ¬ ((List.take (p.length - (f.size - fo))
            (List.drop 0 (content (fi + 1)))).length <
              p.length - (f.size - fo)) := by
          simp only [List.length_take, List.length_drop, hgclen]
          omega
        have hd : readRangeGo files content (files.length + 1) fi fo
            p.length = List.take (f.size - fo) (List.drop fo (content fi))
              ++ List.take (p.length - (f.size - fo))
                (content (fi + 1)) := by
          rw [readRangeGo, if_neg (by omega), hget]
          simp only [hfe, Bool.not_true, Bool.false_eq_true, if_false,
            hwant1]
          rw [if_neg hc1full, hF]
          rw [readRangeGo, if_neg (by omega), hgget]
          simp only [hgfe, Bool.not_true, Bool.false_eq_true, if_false,
            hwant2]
          rw [if_neg hc2full, Nat.sub_self, readRangeGo_zero_n]
          simp
        rw [hd]
        have hpd1 : pyRead (content fi) fo ((f.size : Int) - (fo : Int)) =
            List.take (f.size - fo) (List.drop fo (content fi)) := by
          rw [pyRead, if_neg (by omega)]
          congr 1
          omega
        have hpd2 : pyRead (content (fi + 1)) 0 ((p.length : Int) -
            ((f.size : Int) - (fo : Int))) =
              List.take (p.length - (f.size - fo)) (content (fi + 1)) := by
          rw [pyRead, if_neg (by omega)]
          simp
          congr 1
          omega
        rw [hpd1, hpd2]
        have hlen : (List.take (f.size - fo) (List.drop fo (content fi)) ++
            List.take (p.length - (f.size - fo))
              (content (fi + 1))).length = p.length := by
          simp only [List.length_append, List.length_take, List.length_drop,
            hclen, hgclen]
          omega
        simp only [hgfe, Bool.not_true, Bool.false_eq_true, if_false, hh,
          hgetD]
        split_ifs <;> simp_all
      · -- the next file is missing: the code skips, the spec read is short
        have hgfe2 : g.fexists = false := by simpa using hgfe
        have hd : readRangeGo files content (files.length + 1) fi fo
            p.length = List.take (f.size - fo)
              (List.drop fo (content fi)) := by
          rw [readRangeGo, if_neg (by omega), hget]
          simp only [hfe, Bool.not_true, Bool.false_eq_true, if_false,
            hwant1]
          rw [if_neg hc1full, hF]
          rw [readRangeGo, if_neg (by omega), hgget]
          simp [hgfe2]
        rw [hd]
        simp only [hgfe2, Bool.not_false, eq_self_iff_true, if_true]
        rw [if_neg (by
          simp only [List.length_take, List.length_drop, hclen]
          omega)]
    · -- the piece lies within a single file
      rw [if_neg hsp]
      have hwant1 : min p.length (f.size - fo) = p.length :=
        Nat.min_eq_left (by omega)
      have hcfull : ¬ ((List.take p.length
          (List.drop fo (content fi))).length < p.length) := by
        simp only [List.length_take, List.length_drop, hclen]
        omega
      have hd : readRangeGo files content (files.length + 1) fi fo
          p.length = List.take p.length (List.drop fo (content fi)) := by
        rw [readRangeGo, if_neg (by omega), hget]
        simp only [hfe, Bool.not_true, Bool.false_eq_true, if_false,
          hwant1]
        rw [if_neg hcfull, Nat.sub_self, readRangeGo_zero_n]
        simp
      rw [hd]
      have hpd : pyRead (content fi) fo ((p.length : Nat) : Int) =
          List.take p.length (List.drop fo (content fi)) := by
        rw [pyRead, if_neg (by omega)]
        simp
      rw [hpd]
      have hlen : (List.take p.length (List.drop fo (content fi))).length =
          p.length := by
        simp only [List.length_take, List.length_drop, hclen]
        omega
      simp only [hh, hgetD]
      split_ifs <;> simp_all
  · -- the first file is missing: the code skips, the spec read is empty
    have hfe2 : f.fexists = false := by simpa using hfe
    have hd : readRangeGo files content (files.length + 1) fi fo
        p.length = [] := by
      rw [readRangeGo, if_neg (by omega), hget]
      simp [hfe2]
    rw [hd]
    simp only [hfe2, Bool.not_false, eq_self_iff_true, if_true]
    rw [if_neg (by simp; omega)]

/-- Lift of `checkOnePiece_spec` over the piece loop. -/
theorem checkPiecesFrom_spec (sha1 : List Nat → List Nat)
    (files : List FileItem) (content : Nat → List Nat) (L : Nat)
    (hashes : List (List Nat)) :
    ∀ (ps : List Piece) (start : Nat),
      (∀ k p, ps.get? k = some p →
        checkOnePiece sha1 files content L hashes (start + k) p =
          .ok (resumeSpecPiece sha1 files content L hashes (start + k) p)) →
      ∃ result,
        checkPiecesFrom sha1 files content L hashes start ps = .ok result ∧
        result.length = ps.length ∧
        ∀ k p, ps.get? k = some p →
          result.get? k =
            some (resumeSpecPiece sha1 files content L hashes (start + k)
              p) := by
  intro ps
  induction ps with
  | nil =>
    intro start _
    exact ⟨[], rfl, rfl, fun k p hk => by simp at hk⟩
  | cons p0 ps ih =>
    intro start hone
    have h0 : checkOnePiece sha1 files content L hashes start p0 =
        .ok (resumeSpecPiece sha1 files content L hashes start p0) := by
      simpa using hone 0 p0 (by simp)
    obtain ⟨res, hres, hlen, hchar⟩ := ih (start + 1) (fun k p hk => by
      have hx := hone (k + 1) p (by simpa using hk)
      rw [show start + (k + 1) = start + 1 + k by omega] at hx
      exact hx)
    refine ⟨resumeSpecPiece sha1 files content L hashes start p0 :: res,
      ?_, by simp [hlen], ?_⟩
    · simp only [checkPiecesFrom, h0, hres]
    · intro k p hk
      cases k with
      | zero =>
        simp only [List.get?_cons_zero, Option.some.injEq] at hk
        subst hk
        simp
      | succ k1 =>
        simp only [List.get?_cons_succ] at hk ⊢
        have hx := hchar k1 p hk
        rw [show start + 1 + k1 = start + (k1 + 1) by omega] at hx
        exact hx

/-- **C5, amended.**  For resume verification restricted to the code's
reach — coherent cumulative offsets, positive file sizes, on-disk
contents of existing files matching their nominal sizes, fresh (reset)
pieces of positive length lying inside the torrent, each piece spanning
*at most two* files, and one hash per piece — after
`check_existing_pieces` runs, piece `i` is marked written if and only if
reading the piece's full length at absolute offset `i·L` from the File
map (spanning files as needed) returns exactly that many bytes whose
digest equals `piece_hashes[i]`; every piece not marked written ends in
the reset (empty) state.  (The two-file restriction is forced by the
counterexample: the source's span handling reads from at most the next
file.) -/
theorem claim_C5_resume_verification (sha1 : List Nat → List Nat)
    (files : List FileItem) (content : Nat → List Nat) (L : Nat)
    (hashes : List (List Nat)) (pieces : List Piece)
    (hoff : offsetsOkB 0 files = true)
    (hpos : ∀ g ∈ files, 0 < g.size)
    (hdisk : ∀ j f, files.get? j = some f → f.fexists = true →
      (content j).length = f.size)
    (hfresh : ∀ p ∈ pieces, p.reset = p)
    (hplen : ∀ p ∈ pieces, 0 < p.length)
    (hrange : ∀ i p, pieces.get? i = some p →
      i * L + p.length ≤ sumSizes files)
    (hspan : ∀ i p, pieces.get? i = some p →
      (fileForOffset files (i * L)).2 + p.length ≤
        (files.get? (fileForOffset files (i * L)).1).elim 0 FileItem.size +
        (files.get? ((fileForOffset files (i * L)).1 + 1)).elim 0
          FileItem.size)
    (hhash : hashes.length = pieces.length) :
    ∃ result,
      checkExistingPieces sha1 files content L hashes pieces = .ok result ∧
      result.length = pieces.length ∧
      ∀ i p q, pieces.get? i = some p → result.get? i = some q →
        ((q.written = true) ↔
          ((readRange files content (i * L) p.length).length = p.length ∧
           sha1 (readRange files content (i * L) p.length) =
             hashes.getD i [])) ∧
        (q.written = false → q = p.reset) := by
  have hone : ∀ k p, pieces.get? k = some p →
      checkOnePiece sha1 files content L hashes (0 + k) p =
        .ok (resumeSpecPiece sha1 files content L hashes (0 + k) p) := by
    intro k p hk
    have hmem : p ∈ pieces := List.get?_mem hk
    have hklt : k < pieces.length := by
      rcases List.get?_eq_some.mp hk with ⟨hlt, -⟩
      exact hlt
    rw [Nat.zero_add]
    exact checkOnePiece_spec sha1 files content L hashes k p hoff hpos hdisk
      (hplen p hmem) (hrange k p hk) (hspan k p hk) (by omega)
  obtain ⟨result, hres, hlen, hchar⟩ :=
    checkPiecesFrom_spec sha1 files content L hashes pieces 0 hone
  refine ⟨result, hres, hlen, ?_⟩
  intro i p q hp hq
  have hqc := hchar i p hp
  rw [Nat.zero_add] at hqc
  rw [hq] at hqc
  have hqe : q = resumeSpecPiece sha1 files content L hashes i p :=
    Option.some.inj hqc
  have hpw : p.written = false := by
    rw [← hfresh p (List.get?_mem hp)]
    rfl
  subst hqe
  simp only [resumeSpecPiece]
  by_cases hdl : (readRange files content (i * L) p.length).length =
      p.length
  · rw [if_pos hdl]
    by_cases hsh : sha1 (readRange files content (i * L) p.length) =
        hashes.getD i []
    · rw [if_pos hsh]
      refine ⟨Iff.intro (fun _ => ⟨hdl, hsh⟩) (fun _ => rfl), fun hw => ?_⟩
      exact absurd hw (by simp [Piece.markWritten])
    · rw [if_neg hsh]
      refine ⟨Iff.intro (fun hw => absurd hw (by simp [Piece.reset]))
        (fun hx => absurd hx.2 hsh), fun _ => rfl⟩
  · rw [if_neg hdl]
    exact ⟨Iff.intro (fun hw => absurd hw (by simp [hpw]))
      (fun hx => absurd hx.1 hdl),
      fun _ => (hfresh p (List.get?_mem hp)).symm⟩

/-- Witness for C5 at a concrete input: two size-2 files, two length-2
fresh pieces, on-disk data present and digests matching — the amended
theorem applies and its conclusion holds. -/
theorem claim_C5_witness :
    ∃ result,
      checkExistingPieces sha1Ext files2 content2 2
          [List.replicate 20 0, List.replicate 20 0]
          [Piece.init 0 2 2, Piece.init 1 2 2] = .ok result ∧
      result.length =
        ([Piece.init 0 2 2, Piece.init 1 2 2] : List Piece).length ∧
      ∀ i p q,
        ([Piece.init 0 2 2, Piece.init 1 2 2] : List Piece).get? i =
          some p →
        result.get? i = some q →
        ((q.written = true) ↔
          ((readRange files2 content2 (i * 2) p.length).length = p.length ∧
           sha1Ext (readRange files2 content2 (i * 2) p.length) =
             ([List.replicate 20 0, List.replicate 20 0] :
               List (List Nat)).getD i [])) ∧
        (q.written = false → q = p.reset) :=
  claim_C5_resume_verification sha1Ext files2 content2 2
    [List.replicate 20 0, List.replicate 20 0]
    [Piece.init 0 2 2, Piece.init 1 2 2]
    (by decide)
    (by decide)
    (by
      intro j f hj hfe
      rcases j with _ | _ | j
      · simp only [files2, List.get?_cons_zero, Option.some.injEq] at hj
        subst hj
        rfl
      · simp only [files2, List.get?_cons_succ, List.get?_cons_zero,
          Option.some.injEq] at hj
        subst hj
        rfl
      · simp [files2] at hj)
    (by decide)
    (by decide)
    (by
      intro i p hp
      rcases i with _ | _ | i
      · simp only [List.get?_cons_zero, Option.some.injEq] at hp
        subst hp
        decide
      · simp only [List.get?_cons_succ, List.get?_cons_zero,
          Option.some.injEq] at hp
        subst hp
        decide
      · simp at hp)
    (by
      intro i p hp
      rcases i with _ | _ | i
      · simp only [List.get?_cons_zero, Option.some.injEq] at hp
        subst hp
        decide
      · simp only [List.get?_cons_succ, List.get?_cons_zero,
          Option.some.injEq] at hp
        subst hp
        decide
      · simp at hp)
    (by decide)

end Opalescence
